import Mathlib

/-!
Verification development for the api3-dao-tracker event reducer
(`client/src/state.rs`).  The Rust reducer folds an ordered log of on-chain
DAO events into an in-memory ledger (`AppState`): per-account staking,
delegation and voting positions, reward epochs, and proposal tallies.

Modelling conventions:
* `H160` addresses and `H256` hashes are modelled as `Nat` identifiers.
* `U256` amounts are modelled as `Nat`.  The source's `U256` arithmetic
  panics on underflow and on division by zero; where a claim depends on
  such a panic path the operation returns `Option` and `none` models the
  panic (or the `std::process::exit` in the scheduled-unstake arm of
  `AppState::update`).  Overflow of 256-bit addition/multiplication is not
  modelled (real amounts stay astronomically below `2^256`).
* `BTreeMap` is modelled as an association list (`AMap`) with in-place
  replacement on insert; every quantity the claims read from a map is a
  lookup or a sum, both iteration-order independent.
* The `f64` APR fields are never inspected by any claim; they are carried
  as the raw chain-supplied scaled integer (`nice::dec(new_apr,14)*0.0001`
  in the source is a pure function of that integer, so determinism is
  unaffected).
* Fields of the source state that the reducer entry point never writes or
  reads (`pool_info`, `circulation`, `treasuries`, `grants`, ENS names,
  `Voting.details`) are omitted.
-/

/-- Association-list map with `Nat` keys, modelling `BTreeMap`. -/
abbrev AMap (α : Type) : Type := List (Nat × α)

namespace AMap

/-- Lookup, first matching key. -/
def find {α : Type} : AMap α → Nat → Option α
  | [], _ => none
  | (k', v') :: rest, k => if k = k' then some v' else find rest k

/-- Insert: replace the first occurrence in place, else append. -/
def insert {α : Type} : AMap α → Nat → α → AMap α
  | [], k, v => [(k, v)]
  | (k', v') :: rest, k, v =>
      if k = k' then (k, v) :: rest else (k', v') :: insert rest k v

/-- Remove every binding of a key (`BTreeMap::remove`; keys are unique in
all states the reducer builds, so removing all occurrences agrees). -/
def erase {α : Type} : AMap α → Nat → AMap α
  | [], _ => []
  | (k', v') :: rest, k =>
      if k' = k then erase rest k else (k', v') :: erase rest k

/-- Apply `f` to the value stored at a key, if any (`get_mut` patterns). -/
def modify {α : Type} : AMap α → Nat → (α → α) → AMap α
  | [], _, _ => []
  | (k', v') :: rest, k, f =>
      if k' = k then (k', f v') :: modify rest k f
      else (k', v') :: modify rest k f

/-- Map over all values (`iter_mut().for_each` patterns). -/
def mapVals {α β : Type} : AMap α → (α → β) → AMap β
  | [], _ => []
  | (k', v') :: rest, f => (k', f v') :: mapVals rest f

/-- Map over all values with access to the key. -/
def mapWithKey {α : Type} : AMap α → (Nat → α → α) → AMap α
  | [], _ => []
  | (k', v') :: rest, f => (k', f k' v') :: mapWithKey rest f

/-- Sum of all values (`values().fold(0, +)`). -/
def sumVals (m : AMap Nat) : Nat := (m.map Prod.snd).sum

def contains {α : Type} (m : AMap α) (k : Nat) : Bool := (find m k).isSome


end AMap

/-! ### Data model (from `client/src/state.rs`) -/

/-- `state.rs` `Delegation`: one outgoing delegation of an account. -/
structure Delegation where
  address : Nat
  shares : Nat
  tm : Nat
deriving DecidableEq, Repr

/-- `state.rs` `ScheduledUnstake`: an optimistic unstake reservation. -/
structure ScheduledUnstake where
  amount : Nat
  shares : Nat
  tm : Nat
deriving DecidableEq, Repr

/-- `state.rs` `Wallet`: one account of the ledger.  The `ens` field is
written only by the naming collaborator, never by the reducer; omitted. -/
structure Wallet where
  address : Nat := 0
  vested : Bool := false
  vested_amount : Option Nat := none
  supporter : Bool := false
  deposited : Nat := 0
  withdrawn : Nat := 0
  staked : Nat := 0
  scheduled_unstake : Option ScheduledUnstake := none
  shares : Nat := 0
  delegates : Option Delegation := none
  delegated : AMap Nat := []
  voting_power : Nat := 0
  votes : Nat := 0
  rewards : Nat := 0
  created_at : Nat := 0
  updated_at : Nat := 0
deriving DecidableEq, Repr

/-- `state.rs` `Epoch`: one reward-distribution record.  `apr` carries the
raw value (see the header comment on `f64` modelling). -/
structure Epoch where
  index : Nat
  apr : Nat
  minted : Nat
  total : Nat
  stake : AMap Nat
  tm : Nat
  block_number : Nat
  tx : Nat
deriving DecidableEq, Repr

/-- `state.rs` `Voting`: one governance proposal with its tallies.
`details` is never written by the reducer; omitted. -/
structure Voting where
  primary : Bool := false
  vote_id : Nat := 0
  tm : Nat := 0
  block_number : Nat := 0
  tx : Nat := 0
  creator : Nat := 0
  metadata : String := ""
  title : String := ""
  description : String := ""
  voted_yes : Nat := 0
  voted_no : Nat := 0
  yes : AMap Nat := []
  no : AMap Nat := []
  votes_total : Nat := 0
  executed : Bool := false
deriving DecidableEq, Repr

/-- `events.rs` `VotingAgent` (variants visible throughout `state.rs`). -/
inductive VotingAgent where
  | Primary
  | Secondary
deriving DecidableEq, Repr

/-- `events.rs` `Api3` event payloads.  The variants and their fields are
taken from the exhaustive `match` in `AppState::update`; the source enum's
remaining variants (ignored by the reducer's catch-all arm) are collapsed
into `Unclassified`. -/
inductive Api3 where
  | MintedReward (epoch_index amount new_apr total_stake : Nat)
  | MintedRewardV0 (epoch_index amount new_apr : Nat)
  | Deposited (user amount user_unstaked : Nat)
  | DepositedV0 (user amount : Nat)
  | DepositedVesting (user amount start_tm end_tm user_unstaked user_vesting : Nat)
  | DepositedByTimelockManager (user amount user_unstaked : Nat)
  | Withdrawn (user amount user_unstaked : Nat)
  | WithdrawnV0 (user amount : Nat)
  | Staked (user amount minted_shares user_unstaked user_shares total_shares total_stake : Nat)
  | StakedV0 (user amount minted_shares : Nat)
  | ScheduledUnstakeEv (user amount shares scheduled_for user_shares : Nat)
  | ScheduledUnstakeV0 (user amount shares scheduled_for : Nat)
  | Unstaked (user amount user_unstaked total_shares total_stake : Nat)
  | UnstakedV0 (user amount : Nat)
  | Delegated (from_a to_a shares total_delegated_to : Nat)
  | DelegatedV0 (from_a to_a shares : Nat)
  | Undelegated (from_a to_a shares total_delegated_to : Nat)
  | UndelegatedV0 (from_a to_a shares : Nat)
  | StartVote (agent : VotingAgent) (vote_id creator : Nat) (metadata : String)
  | CastVote (agent : VotingAgent) (vote_id voter : Nat) (supports : Bool) (stake : Nat)
  | ExecuteVote (agent : VotingAgent) (vote_id : Nat)
  | SetVestingAddresses (addresses : List Nat)
  | Unclassified
deriving DecidableEq, Repr

/-- `state.rs` `OnChainEvent`: an event with its chain metadata. -/
structure OnChainEvent where
  entry : Api3
  tm : Nat
  block_number : Nat
  tx : Nat
  log_index : Nat
deriving DecidableEq, Repr

/-- `state.rs` `AppState`: the aggregate ledger (reducer-relevant fields). -/
structure AppState where
  version : String
  chain_id : Nat
  epoch_index : Nat
  apr : Nat
  last_block : Nat
  epochs : AMap Epoch
  votings : AMap Voting
  votings_events : AMap (List OnChainEvent)
  wallets : AMap Wallet
  wallets_events : AMap (List OnChainEvent)
  vested : List Nat
  decimals : List (String × Nat)
deriving DecidableEq, Repr

/-- `state.rs` `get_known_decimals`. -/
def get_known_decimals : List (String × Nat) := [("API3", 18), ("USDC", 6)]

/-- `AppState::new`.  The genesis `apr` literal `0.3875` is carried as the
code `3875` (never inspected; see the header comment). -/
def AppState.new (chain_id : Nat) : AppState :=
  { version := "20210820"
    chain_id := chain_id
    epoch_index := 1
    apr := 3875
    last_block := 0
    epochs := []
    votings := []
    wallets := []
    votings_events := []
    wallets_events := []
    vested := []
    decimals := get_known_decimals }

/-! ### Reducer operations (from `impl AppState` / `impl Wallet`) -/

/-- `Wallet::update_voting_power`: zero if delegating, else `shares`, plus
the sum of incoming delegations.  The sole writer of `voting_power`. -/
def Wallet.update_voting_power (w : Wallet) : Wallet :=
  { w with voting_power :=
      (match w.delegates with
        | some _ => 0
        | none => w.shares) + AMap.sumVals w.delegated }

/-- `AppState::get_voting_power_of`. -/
def AppState.get_voting_power_of (s : AppState) (voter : Nat) : Nat :=
  match AMap.find s.wallets voter with
  | some w => w.voting_power
  | none => 0

/-- `AppState::get_votes_total`. -/
def AppState.get_votes_total (s : AppState) : Nat :=
  (s.wallets.map (fun kw => kw.2.voting_power)).sum

/-- `AppState::get_shares_total`. -/
def AppState.get_shares_total (s : AppState) : Nat :=
  (s.wallets.map (fun kw => kw.2.shares)).sum

/-- `AppState::get_staked_total`. -/
def AppState.get_staked_total (s : AppState) : Nat :=
  (s.wallets.map (fun kw => kw.2.staked)).sum

/-- `AppState::set_vesting_addresses`. -/
def AppState.set_vesting_addresses (s : AppState) (addresses : List Nat) : AppState :=
  let w' := AMap.mapWithKey s.wallets
    (fun addr w => { w with vested := addresses.contains addr })
  { s with wallets := w', vested := addresses }

/-- Tail of `AppState::delegate` (source lines 611-632): overwrite
`from.delegates`, then install the back-reference on `to` — or fail with
"invalid to- wallet" *after* the overwrite.  `address` is the `from`
wallet's own address captured at entry. -/
def AppState.delegateFinish (s : AppState) (fromA toA : Nat) (tm address : Nat) :
    AppState × Option String :=
  match AMap.find s.wallets fromA with
  | none => (s, some "invalid from- wallet")
  | some wf1 =>
      match AMap.find (AMap.insert s.wallets fromA (Wallet.update_voting_power { wf1 with delegates := some ⟨toA, wf1.shares, tm⟩ })) toA with
      | none =>
          ({ s with wallets := AMap.insert s.wallets fromA (Wallet.update_voting_power { wf1 with delegates := some ⟨toA, wf1.shares, tm⟩ }) },
           some "invalid to- wallet")
      | some wt =>
          ({ s with wallets := AMap.insert (AMap.insert s.wallets fromA (Wallet.update_voting_power { wf1 with delegates := some ⟨toA, wf1.shares, tm⟩ })) toA (Wallet.update_voting_power { wt with delegated := AMap.insert wt.delegated address wf1.shares }) },
           none)

/-- `AppState::delegate`.  Mirrors the source's mutation order: the old
back-reference is removed and `from.delegates` is overwritten *before* the
`to` wallet is looked up, so the "invalid to- wallet" error leaves those
mutations in place.  The second component is the `Err` message, if any. -/
def AppState.delegate (s : AppState) (fromA toA : Nat) (tm : Nat) :
    AppState × Option String :=
  match AMap.find s.wallets fromA with
  | none => (s, some "invalid from- wallet")
  | some wf =>
    match wf.delegates with
    | none => s.delegateFinish fromA toA tm wf.address
    | some existing =>
        match AMap.find s.wallets existing.address with
        | some _ =>
            AppState.delegateFinish
              { s with wallets := AMap.modify s.wallets existing.address (fun old => Wallet.update_voting_power { old with delegated := AMap.erase old.delegated wf.address }) }
              fromA toA tm wf.address
        | none => (s, some "no record of delegation wallet")

/-- Tail of `AppState::undelegate` after the back-reference removal: the
defensive shares check runs *before* `from.delegates` is cleared, so the
"insufficient shares" error leaves the delegation record in place. -/
def AppState.undelegateFinish (s : AppState) (fromA : Nat) (shares : Nat) :
    AppState × Option String :=
  match AMap.find s.wallets fromA with
  | none => (s, some "invalid from- wallet")
  | some wf1 =>
      if wf1.shares < shares then
        (s, some "shares amount is less than undelegated")
      else
        ({ s with wallets := AMap.insert s.wallets fromA (Wallet.update_voting_power { wf1 with delegates := none }) },
         none)

/-- `AppState::undelegate`.  Note the source removes the target's
back-reference keyed by the `from` *parameter* (line 647). -/
def AppState.undelegate (s : AppState) (fromA toA : Nat) (shares : Nat) :
    AppState × Option String :=
  match AMap.find s.wallets fromA with
  | none => (s, some "invalid from- wallet")
  | some wf =>
      match wf.delegates with
      | some existing =>
          if existing.address ≠ toA then
            (s, some "undelegate to doesn't match")
          else
            match AMap.find s.wallets existing.address with
            | none => (s, some "no record of delegation wallet")
            | some _ =>
                AppState.undelegateFinish
                  { s with wallets := AMap.modify s.wallets existing.address (fun old => Wallet.update_voting_power { old with delegated := AMap.erase old.delegated fromA }) }
                  fromA shares
      | none => s.undelegateFinish fromA shares

/-- Shared tail of `AppState::staked` and `AppState::scheduled_unstake`:
store the reworked wallet, then refresh the delegation target's
back-reference with the wallet's new share count. -/
def AppState.syncAndBackref (s : AppState) (user : Nat) (w3 : Wallet) : AppState :=
  let s1 := { s with wallets := AMap.insert s.wallets user w3 }
  match w3.delegates with
  | none => s1
  | some d =>
      match AMap.find s1.wallets d.address with
      | none => s1
      | some wt =>
          let wt2 := Wallet.update_voting_power
            { wt with delegated := AMap.insert wt.delegated user w3.shares }
          { s1 with wallets := AMap.insert s1.wallets d.address wt2 }

/-- `AppState::staked`: missing account is a silent no-op (`None` arm of the
source's match returns `(None, 0)` and the back-reference step is skipped). -/
def AppState.staked (s : AppState) (user : Nat) (amount shares : Nat) : AppState :=
  match AMap.find s.wallets user with
  | none => s
  | some w =>
      let w1 := { w with
        staked := w.staked + amount,
        shares := w.shares + shares,
        supporter :=
          if w.vested_amount = none ∧ w.withdrawn = 0 then true else w.supporter }
      let w2 := { w1 with
        delegates := w1.delegates.map (fun d => { d with shares := w1.shares }) }
      s.syncAndBackref user (Wallet.update_voting_power w2)

/-- `AppState::scheduled_unstake`.  `none` models the `Err` returns, which
the `ScheduledUnstake` arms of `AppState::update` escalate to
`std::process::exit` (fatal desync policy). -/
def AppState.scheduled_unstake (s : AppState)
    (user amount shares scheduled_for : Nat) : Option AppState :=
  match AMap.find s.wallets user with
  | none => none
  | some w =>
      if w.shares < shares then none
      else
        let amount_to_deduct := if w.staked < amount then w.staked else amount
        let w1 := { w with
          scheduled_unstake := some ⟨amount_to_deduct, shares, scheduled_for⟩,
          staked := w.staked - amount_to_deduct,
          shares := w.shares - shares,
          supporter := false }
        let w2 := { w1 with
          delegates := w1.delegates.map (fun d => { d with shares := w1.shares }) }
        some (s.syncAndBackref user (Wallet.update_voting_power w2))

/-- `AppState::unstaked`: computes `amount * total_shares / total_stake`
only for the commented-out consistency warning, then clears the reservation.
When a ledger entry exists and the staked total is zero, the `U256` division
panics — modelled as `none`. -/
def AppState.unstaked (s : AppState) (user : Nat) (amount : Nat) : Option AppState :=
  let total_stake := s.get_staked_total
  match AMap.find s.wallets user with
  | none => some s
  | some w =>
      if total_stake = 0 then none
      else
        let _shares := amount * s.get_shares_total / total_stake
        let w' := AMap.insert s.wallets user { w with scheduled_unstake := none }
        some { s with wallets := w' }

/-- `AppState::distribute`.  `none` models the `U256` panics: underflow of
`total_stake - amount`, and division by zero when the computed `total` is
zero while at least one account exists. -/
def AppState.distribute (s : AppState) (epoch_index amount new_apr : Nat)
    (total_stake : Option Nat) (tm block_number tx : Nat) : Option AppState :=
  let stake : AMap Nat := AMap.mapVals s.wallets (fun w => w.staked + w.rewards)
  let totalOpt : Option Nat :=
    match total_stake with
    | some x => if x < amount then none else some (x - amount)
    | none => some (AMap.sumVals stake)
  match totalOpt with
  | none => none
  | some total =>
      if s.wallets ≠ [] ∧ total = 0 then none
      else
        let epoch : Epoch :=
          ⟨epoch_index, s.apr, amount, total, stake, tm, block_number, tx⟩
        let wallets' := AMap.mapVals s.wallets (fun w =>
          { w with rewards :=
              w.rewards + (epoch.minted * (w.staked + w.rewards)) / total })
        some { s with
          epochs := AMap.insert s.epochs epoch.index epoch,
          wallets := wallets',
          epoch_index := epoch.index + 1,
          apr := new_apr }

/-! ### Event helpers and the reducer entry point -/

/-- `Voting::as_u64` (via `events::voting_to_u64`). -/
def voting_to_u64 (agent : VotingAgent) (vote_id : Nat) : Nat :=
  2 * vote_id + (match agent with | .Primary => 0 | .Secondary => 1)

/-- Modelled from the spec: `events.rs` is not under `src/`.  It is the
key "encoding of `(agent, vote_id)` into a single integer" (§3); any
injective encoding serves; the agent bit is packed below the vote id. -/
def Voting.as_u64 (v : Voting) : Nat :=
  voting_to_u64 (if v.primary then .Primary else .Secondary) v.vote_id

/-- Modelled from the spec: `events.rs` (`Api3::get_wallets`) is not under
`src/`.  Per §4.2 the reducer materializes a record for every account an
event references, i.e. the account fields of each payload. -/
def Api3.get_wallets : Api3 → List Nat
  | .MintedReward _ _ _ _ => []
  | .MintedRewardV0 _ _ _ => []
  | .Deposited user _ _ => [user]
  | .DepositedV0 user _ => [user]
  | .DepositedVesting user _ _ _ _ _ => [user]
  | .DepositedByTimelockManager user _ _ => [user]
  | .Withdrawn user _ _ => [user]
  | .WithdrawnV0 user _ => [user]
  | .Staked user _ _ _ _ _ _ => [user]
  | .StakedV0 user _ _ => [user]
  | .ScheduledUnstakeEv user _ _ _ _ => [user]
  | .ScheduledUnstakeV0 user _ _ _ => [user]
  | .Unstaked user _ _ _ _ => [user]
  | .UnstakedV0 user _ => [user]
  | .Delegated from_a to_a _ _ => [from_a, to_a]
  | .DelegatedV0 from_a to_a _ => [from_a, to_a]
  | .Undelegated from_a to_a _ _ => [from_a, to_a]
  | .UndelegatedV0 from_a to_a _ => [from_a, to_a]
  | .StartVote _ _ creator _ => [creator]
  | .CastVote _ _ voter _ _ => [voter]
  | .ExecuteVote _ _ => []
  | .SetVestingAddresses _ => []
  | .Unclassified => []

/-- Modelled from the spec: `events.rs` (`Api3::get_voting`) is not under
`src/`.  The three proposal events resolve to their proposal key. -/
def Api3.get_voting : Api3 → Option Nat
  | .StartVote agent vote_id _ _ => some (voting_to_u64 agent vote_id)
  | .CastVote agent vote_id _ _ _ => some (voting_to_u64 agent vote_id)
  | .ExecuteVote agent vote_id => some (voting_to_u64 agent vote_id)
  | _ => none

/-- Wallet/event materialization prologue of `AppState::update`: first-seen
accounts get a default `Wallet` stamped with `created_at`; the event is
appended to the account's log; `updated_at` is stamped.  (The source's
`.unwrap()` on the final stamp cannot fail: `wallets` and `wallets_events`
gain keys only here, together.) -/
def AppState.materializeWallet (s : AppState) (addr : Nat) (e : OnChainEvent) : AppState :=
  let s1 :=
    if AMap.contains s.wallets_events addr then s
    else
      { s with
        wallets_events := AMap.insert s.wallets_events addr [],
        wallets := AMap.insert s.wallets addr { address := addr, created_at := e.tm } }
  let s2 := { s1 with
    wallets_events := AMap.modify s1.wallets_events addr (fun l => l ++ [e]) }
  { s2 with
    wallets := AMap.modify s2.wallets addr (fun w => { w with updated_at := e.tm }) }

/-- Proposal-log prologue of `AppState::update`. -/
def AppState.pushVotingEvent (s : AppState) (id : Nat) (e : OnChainEvent) : AppState :=
  let s1 :=
    if AMap.contains s.votings_events id then s
    else { s with votings_events := AMap.insert s.votings_events id [] }
  { s1 with votings_events := AMap.modify s1.votings_events id (fun l => l ++ [e]) }

/-- `StartVote` arm of `AppState::update`. -/
def AppState.startVote (s : AppState) (agent : VotingAgent)
    (vote_id creator : Nat) (metadata : String) (e : OnChainEvent) : AppState :=
  let primary := match agent with | .Primary => true | .Secondary => false
  let parts := metadata.splitOn "|"
  let title := match parts.get? 2 with | some x => x | none => metadata
  let description := match parts.get? 3 with | some x => x | none => ""
  let yes : AMap Nat := AMap.insert [] creator (s.get_voting_power_of creator)
  let v : Voting := {
    primary := primary,
    vote_id := vote_id,
    tm := e.tm,
    block_number := e.block_number,
    tx := e.tx,
    creator := creator,
    metadata := metadata,
    title := title,
    description := description,
    votes_total := s.get_votes_total,
    voted_yes := s.get_voting_power_of creator,
    voted_no := 0,
    yes := yes,
    no := [],
    executed := false }
  let s1 := { s with votings := AMap.insert s.votings v.as_u64 v }
  let w' := AMap.modify s1.wallets creator (fun w => { w with votes := w.votes + 1 })
  { s1 with wallets := w' }

/-- `CastVote` arm of `AppState::update`: inserts/overwrites the voter's
entry in the `yes` or `no` map per `supports` (the other side's map is not
touched), then recomputes both tallies as sums of the maps' values; the
voter's vote count is bumped whether or not the proposal was found. -/
def AppState.castVote (s : AppState) (agent : VotingAgent)
    (vote_id voter : Nat) (supports : Bool) (stake : Nat) : AppState :=
  let key := voting_to_u64 agent vote_id
  let s1 :=
    match AMap.find s.votings key with
    | none => s
    | some v =>
        let v1 :=
          if supports then { v with yes := AMap.insert v.yes voter stake }
          else { v with no := AMap.insert v.no voter stake }
        let v2 := { v1 with
          voted_yes := AMap.sumVals v1.yes,
          voted_no := AMap.sumVals v1.no }
        { s with votings := AMap.insert s.votings key v2 }
  let w' := AMap.modify s1.wallets voter (fun w => { w with votes := w.votes + 1 })
  { s1 with wallets := w' }

/-- `ExecuteVote` arm of `AppState::update`: absent proposal is a no-op. -/
def AppState.executeVote (s : AppState) (agent : VotingAgent) (vote_id : Nat) : AppState :=
  let v' := AMap.modify s.votings (voting_to_u64 agent vote_id)
    (fun v => { v with executed := true })
  { s with votings := v' }

/-- `AppState::update`, the reducer's single entry point.  `logBlock` is
`log.block_number` of the accompanying `web3` log.  `none` models process
death: a `U256` panic, or the explicit `std::process::exit` escalation of a
scheduled-unstake failure. -/
def AppState.update (s : AppState) (e : OnChainEvent) (logBlock : Option Nat) :
    Option AppState :=
  let s := match logBlock with | some b => { s with last_block := b } | none => s
  let s := e.entry.get_wallets.foldl (fun st addr => st.materializeWallet addr e) s
  let s := match e.entry.get_voting with | some id => s.pushVotingEvent id e | none => s
  match e.entry with
  | .MintedReward epoch_index amount new_apr total_stake =>
      s.distribute epoch_index amount new_apr (some total_stake) e.tm e.block_number e.tx
  | .MintedRewardV0 epoch_index amount new_apr =>
      s.distribute epoch_index amount new_apr none e.tm e.block_number e.tx
  | .Deposited user amount _ =>
      let w' := AMap.modify s.wallets user
        (fun w => { w with deposited := w.deposited + amount })
      some { s with wallets := w' }
  | .DepositedV0 user amount =>
      let w' := AMap.modify s.wallets user
        (fun w => { w with deposited := w.deposited + amount })
      some { s with wallets := w' }
  | .DepositedVesting user amount _ _ _ _ =>
      let w' := AMap.modify s.wallets user (fun w =>
        { w with
          deposited := w.deposited + amount,
          vested_amount :=
            some (amount + (match w.vested_amount with | none => 0 | some v => v)),
          supporter := false })
      some { s with wallets := w' }
  | .DepositedByTimelockManager user amount _ =>
      let w' := AMap.modify s.wallets user (fun w =>
        { w with deposited := w.deposited + amount, supporter := false })
      some { s with wallets := w' }
  | .Withdrawn user amount _ =>
      let w' := AMap.modify s.wallets user (fun w =>
        { w with withdrawn := w.withdrawn + amount, supporter := false })
      some { s with wallets := w' }
  | .WithdrawnV0 user amount =>
      let w' := AMap.modify s.wallets user (fun w =>
        { w with withdrawn := w.withdrawn + amount, supporter := false })
      some { s with wallets := w' }
  | .Staked user amount minted_shares _ _ _ _ =>
      some (s.staked user amount minted_shares)
  | .StakedV0 user amount minted_shares =>
      some (s.staked user amount minted_shares)
  | .ScheduledUnstakeEv user amount shares scheduled_for _ =>
      s.scheduled_unstake user amount shares scheduled_for
  | .ScheduledUnstakeV0 user amount shares scheduled_for =>
      s.scheduled_unstake user amount shares scheduled_for
  | .Unstaked user amount _ _ _ => s.unstaked user amount
  | .UnstakedV0 user amount => s.unstaked user amount
  | .Delegated from_a to_a _ _ => some (s.delegate from_a to_a e.tm).1
  | .DelegatedV0 from_a to_a _ => some (s.delegate from_a to_a e.tm).1
  | .Undelegated from_a to_a shares _ => some (s.undelegate from_a to_a shares).1
  | .UndelegatedV0 from_a to_a shares => some (s.undelegate from_a to_a shares).1
  | .StartVote agent vote_id creator metadata =>
      some (s.startVote agent vote_id creator metadata e)
  | .CastVote agent vote_id voter supports stake =>
      some (s.castVote agent vote_id voter supports stake)
  | .ExecuteVote agent vote_id => some (s.executeVote agent vote_id)
  | .SetVestingAddresses addresses => some (s.set_vesting_addresses addresses)
  | .Unclassified => some s

/-- One delivered event: payload plus the `web3` log's block number. -/
structure EventInput where
  event : OnChainEvent
  logBlock : Option Nat
deriving DecidableEq, Repr

/-- Fold a delivered event sequence over a state; `none` once any event
kills the process. -/
def applyEvents (s : AppState) (es : List EventInput) : Option AppState :=
  es.foldl (fun acc ei => acc.bind (fun st => st.update ei.event ei.logBlock)) (some s)

/-! ### Derived notions used by the claims -/

/-- The derivation `Wallet::update_voting_power` establishes: zero when
delegating, else own shares, plus all incoming delegations. -/
def vpOk (w : Wallet) : Prop :=
  w.voting_power =
    (match w.delegates with | some _ => 0 | none => w.shares) + AMap.sumVals w.delegated

/-- Total rewards credited across the ledger. -/
def sumRewards (s : AppState) : Nat :=
  (s.wallets.map (fun kw => kw.2.rewards)).sum

/-! ### Concrete fixtures -/

/-- A one-account ledger: account `1` with `staked = 1000`. -/
def distState : AppState :=
  { AppState.new 1 with
    wallets := [(1, { address := 1, staked := 1000 })],
    wallets_events := [(1, [])] }

/-- Result of an authoritative-total distribution over `distState`. -/
def distSA : AppState :=
  (distState.distribute 1 100 7 (some 1100) 2 3 4).getD (AppState.new 0)

/-- Result of a legacy (no authoritative total) distribution over `distState`. -/
def distSL : AppState :=
  (distState.distribute 1 100 7 none 2 3 4).getD (AppState.new 0)

/-- A ledger whose sole account holds an unstake reservation. -/
def reservedState : AppState :=
  { AppState.new 1 with
    wallets := [(1, { address := 1, staked := 50, shares := 50,
                      scheduled_unstake := some ⟨5, 5, 9⟩ })],
    wallets_events := [(1, [])] }

/-- Result of confirming an unstake on `reservedState`. -/
def reservedOut : AppState := (reservedState.unstaked 1 5).getD (AppState.new 0)

/-- A ledger with an account but zero total stake. -/
def zeroStakeState : AppState :=
  { AppState.new 1 with
    wallets := [(1, { address := 1 })],
    wallets_events := [(1, [])] }

/-- Account `1` delegates to `3`; target `2` has no ledger entry. -/
def cxDelegateState : AppState :=
  { AppState.new 1 with
    wallets := [(1, { address := 1, shares := 5, delegates := some ⟨3, 5, 0⟩ }),
                (3, { address := 3, delegated := [(1, 5)], voting_power := 5 })],
    wallets_events := [(1, []), (3, [])] }

/-- Account `1` delegates to `2` (back-reference in place). -/
def cxUndelegateState : AppState :=
  { AppState.new 1 with
    wallets := [(1, { address := 1, shares := 5, delegates := some ⟨2, 5, 0⟩ }),
                (2, { address := 2, delegated := [(1, 5)], voting_power := 5 })],
    wallets_events := [(1, []), (2, [])] }

/-- A minimal state holding one (default) proposal under the Primary agent
with vote id `1`. -/
def cxVoteState : AppState :=
  { AppState.new 1 with votings := [(voting_to_u64 .Primary 1, {})] }

/-- Events: a proposal is started, then voter `50` casts yes `100` and
switches to no `100`. -/
def c2Events : List EventInput :=
  [⟨⟨.StartVote .Primary 1 40 "m", 0, 1, 2, 3⟩, some 1⟩,
   ⟨⟨.CastVote .Primary 1 50 true 100, 0, 1, 2, 4⟩, some 1⟩,
   ⟨⟨.CastVote .Primary 1 50 false 100, 0, 1, 2, 5⟩, some 1⟩]

/-! ### The reducer's ledger invariant -/

/-- Well-formedness of the wallet ledger `W` with its event-log map `E`,
maintained by every reducer entry point: `addr` — the map key is the
wallet's address; `vp` — voting power matches the derivation of
`Wallet::update_voting_power`; `dsh` — an outgoing delegation's snapshot
equals the delegator's live shares; `backref` — every incoming-delegation
entry is owned by a delegator whose recorded target is this wallet and
whose snapshot equals the entry; `keys` — `W` and `E` hold the same keys. -/
structure MapsWF (W : AMap Wallet) (E : AMap (List OnChainEvent)) : Prop where
  addr : ∀ k w, AMap.find W k = some w → w.address = k
  vp : ∀ k w, AMap.find W k = some w → vpOk w
  dsh : ∀ k w d, AMap.find W k = some w → w.delegates = some d →
    d.shares = w.shares
  backref : ∀ t wt f v, AMap.find W t = some wt →
    AMap.find wt.delegated f = some v →
    ∃ wf d, AMap.find W f = some wf ∧ wf.delegates = some d ∧
      d.address = t ∧ d.shares = v
  keys : ∀ k, (AMap.find W k).isSome = (AMap.find E k).isSome

/-- The ledger invariant of a reducer state. -/
abbrev WF (s : AppState) : Prop := MapsWF s.wallets s.wallets_events

/-- No wallet of `W` holds an incoming-delegation entry keyed by `f`. -/
def NoIncoming (W : AMap Wallet) (f : Nat) : Prop :=
  ∀ t wt, AMap.find W t = some wt → AMap.find wt.delegated f = none

/-- Delivered sequence where account 10 both delegates out (to 30) and
receives an incoming delegation (from 20, which staked 10 shares). -/
def c1Events : List EventInput :=
  [ ⟨⟨.StakedV0 20 10 10, 1, 1, 1, 0⟩, some 1⟩,
    ⟨⟨.DelegatedV0 10 30 0, 2, 2, 2, 0⟩, some 2⟩,
    ⟨⟨.DelegatedV0 20 10 0, 3, 3, 3, 0⟩, some 3⟩ ]

/-- The state reached by `c1Events` (all three events complete). -/
def c1State : AppState := (applyEvents (AppState.new 1) c1Events).getD (AppState.new 1)

/-- Account 10 of `c1State`. -/
def c1Wallet : Wallet := (AMap.find c1State.wallets 10).getD {}

/-- The spec's voting-power invariant, word for word: a delegating account
shows zero voting power; a non-delegating one shows shares plus incoming. -/
def specVotingPowerClaimHolds (s : AppState) : Bool :=
  s.wallets.all (fun kw =>
    match kw.2.delegates with
    | some _ => kw.2.voting_power == 0
    | none => kw.2.voting_power == kw.2.shares + AMap.sumVals kw.2.delegated)

/-- Delivered sequence ending in an `Undelegated` whose share amount exceeds
the delegator's holdings, hitting the defensive error path. -/
def c3Events : List EventInput :=
  [ ⟨⟨.StakedV0 10 10 10, 1, 1, 1, 0⟩, some 1⟩,
    ⟨⟨.DelegatedV0 10 20 0, 2, 2, 2, 0⟩, some 2⟩,
    ⟨⟨.UndelegatedV0 10 20 999, 3, 3, 3, 0⟩, some 3⟩ ]

/-- The state reached by `c3Events`. -/
def c3State : AppState := (applyEvents (AppState.new 1) c3Events).getD (AppState.new 1)

/-- Account 10 of `c3State`. -/
def c3Wallet : Wallet := (AMap.find c3State.wallets 10).getD {}

/-- Account 10's recorded delegation in `c3State`. -/
def c3Delegation : Delegation := c3Wallet.delegates.getD ⟨0, 0, 0⟩

/-- The spec's delegation-symmetry invariant, word for word: every account
with an active delegation has a matching `delegated` entry of equal value on
the target, and the recorded shares equal the delegator's current shares. -/
def specDelegationSymmetryHolds (s : AppState) : Bool :=
  s.wallets.all (fun kw =>
    match kw.2.delegates with
    | none => true
    | some d =>
        match AMap.find s.wallets d.address with
        | none => false
        | some wt =>
            match AMap.find wt.delegated kw.1 with
            | none => false
            | some v => v == d.shares && d.shares == kw.2.shares)

/-! ### Theorems -/

namespace AMap

theorem find_insert {α : Type} (m : AMap α) (k : Nat) (v : α) (k' : Nat) :
    find (insert m k v) k' = if k' = k then some v else find m k' := by
  induction m with
  | nil => by_cases h : k' = k <;> simp [insert, find, h]
  | cons hd tl ih =>
    obtain ⟨k0, v0⟩ := hd
    by_cases hk : k = k0 <;> by_cases h : k' = k <;> by_cases h0 : k' = k0 <;>
      (try subst hk) <;> (try subst h) <;> (try subst h0) <;>
      first
        | (exfalso; omega)
        | simp_all [insert, find]

theorem find_erase {α : Type} (m : AMap α) (k k' : Nat) :
    find (erase m k) k' = if k' = k then none else find m k' := by
  induction m with
  | nil => by_cases h : k' = k <;> simp [erase, find, h]
  | cons hd tl ih =>
    obtain ⟨k0, v0⟩ := hd
    by_cases hk : k0 = k <;> by_cases h : k' = k <;> by_cases h0 : k' = k0 <;>
      (try subst hk) <;> (try subst h) <;> (try subst h0) <;>
      first
        | (exfalso; omega)
        | simp_all [erase, find]

theorem find_modify {α : Type} (m : AMap α) (k : Nat) (f : α → α) (k' : Nat) :
    find (modify m k f) k' =
      if k' = k then (find m k).map f else find m k' := by
  induction m with
  | nil => by_cases h : k' = k <;> simp [modify, find, h]
  | cons hd tl ih =>
    obtain ⟨k0, v0⟩ := hd
    by_cases hk : k0 = k <;> by_cases h : k' = k <;> by_cases h0 : k' = k0 <;>
      (try subst hk) <;> (try subst h) <;> (try subst h0) <;>
      first
        | (exfalso; omega)
        | simp_all [modify, find]

theorem find_mapVals {α β : Type} (m : AMap α) (f : α → β) (k : Nat) :
    find (mapVals m f) k = (find m k).map f := by
  induction m with
  | nil => simp [mapVals, find]
  | cons hd tl ih =>
    obtain ⟨k0, v0⟩ := hd
    by_cases h : k = k0 <;> simp [mapVals, find, h, ih]

theorem find_mapWithKey {α : Type} (m : AMap α) (f : Nat → α → α) (k : Nat) :
    find (mapWithKey m f) k = (find m k).map (f k) := by
  induction m with
  | nil => simp [mapWithKey, find]
  | cons hd tl ih =>
    obtain ⟨k0, v0⟩ := hd
    by_cases h : k = k0 <;> simp [mapWithKey, find, h, ih]

end AMap

/-! ### Arithmetic facts about floored pro-rata division -/

theorem nat_div_add_div_le (a b c : Nat) : a / c + b / c ≤ (a + b) / c := by
  rcases Nat.eq_zero_or_pos c with hc | hc
  · subst hc; simp
  · rw [Nat.le_div_iff_mul_le hc, Nat.add_mul]
    exact Nat.add_le_add (Nat.div_mul_le_self a c) (Nat.div_mul_le_self b c)

theorem nat_lt_div_succ_mul (a c : Nat) (hc : 0 < c) : a < (a / c + 1) * c := by
  calc a = c * (a / c) + a % c := (Nat.div_add_mod a c).symm
    _ < c * (a / c) + c := Nat.add_lt_add_left (Nat.mod_lt a hc) _
    _ = (a / c + 1) * c := by ring

theorem sum_map_div_le (l : List Nat) (c : Nat) :
    (l.map (fun x => x / c)).sum ≤ l.sum / c := by
  induction l with
  | nil => simp
  | cons a tl ih =>
    calc (List.map (fun x => x / c) (a :: tl)).sum
        = a / c + (tl.map (fun x => x / c)).sum := by simp
      _ ≤ a / c + tl.sum / c := Nat.add_le_add_left ih _
      _ ≤ (a + tl.sum) / c := nat_div_add_div_le _ _ _
      _ = (a :: tl).sum / c := by simp

theorem sum_map_mul_left_nat (l : List Nat) (m : Nat) :
    (l.map (fun x => m * x)).sum = m * l.sum := by
  induction l with
  | nil => simp
  | cons a tl ih => simp [ih, Nat.mul_add]

/-- Floored pro-rata shares of `m` over weights summing to the divisor never
exceed `m`. -/
theorem prorata_sum_le (l : List Nat) (m : Nat) (hS : 0 < l.sum) :
    (l.map (fun x => m * x / l.sum)).sum ≤ m := by
  have h1 : (l.map (fun x => m * x / l.sum)).sum
      = ((l.map (fun x => m * x)).map (fun y => y / l.sum)).sum := by
    simp [List.map_map, Function.comp_def]
  calc (l.map (fun x => m * x / l.sum)).sum
      = ((l.map (fun x => m * x)).map (fun y => y / l.sum)).sum := h1
    _ ≤ (l.map (fun x => m * x)).sum / l.sum := sum_map_div_le _ _
    _ = m * l.sum / l.sum := by rw [sum_map_mul_left_nat]
    _ = m := Nat.mul_div_cancel m hS

/-- Each floored share loses strictly less than one divisor unit. -/
theorem prorata_mul_lt (l : List Nat) (m S : Nat) (hS : 0 < S) (hne : l ≠ []) :
    m * l.sum < ((l.map (fun x => m * x / S)).sum + l.length) * S := by
  induction l with
  | nil => exact absurd rfl hne
  | cons a tl ih =>
    by_cases htl : tl = []
    · subst htl
      simpa [Nat.add_mul] using nat_lt_div_succ_mul (m * a) S hS
    · have h1 := nat_lt_div_succ_mul (m * a) S hS
      have h2 := ih htl
      calc m * (a :: tl).sum = m * a + m * tl.sum := by simp [Nat.mul_add]
        _ < (m * a / S + 1) * S + ((tl.map (fun x => m * x / S)).sum + tl.length) * S :=
            Nat.add_lt_add h1 h2
        _ = (((a :: tl).map (fun x => m * x / S)).sum + (a :: tl).length) * S := by
            simp [Nat.add_mul]; ring

/-- Shortfall bound: the floored shares recover all but fewer than
`l.length` units of `m`. -/
theorem prorata_shortfall (l : List Nat) (m : Nat) (hS : 0 < l.sum) (hne : l ≠ []) :
    m - (l.map (fun x => m * x / l.sum)).sum < l.length := by
  have h := prorata_mul_lt l m l.sum hS hne
  have hlen : 0 < l.length := List.length_pos.mpr hne
  by_contra hcon
  push_neg at hcon
  have hge : (l.map (fun x => m * x / l.sum)).sum + l.length ≤ m := by omega
  have hmul := Nat.mul_le_mul_right l.sum hge
  omega

theorem sumVals_mapVals {α : Type} (m : AMap α) (f : α → Nat) :
    AMap.sumVals (AMap.mapVals m f) = (m.map (fun kw => f kw.2)).sum := by
  induction m with
  | nil => simp [AMap.mapVals, AMap.sumVals]
  | cons hd tl ih =>
    obtain ⟨k0, v0⟩ := hd
    simp [AMap.mapVals, AMap.sumVals] at ih ⊢
    exact ih

theorem map_mapVals {α β γ : Type} (m : AMap α) (g : α → β) (φ : β → γ) :
    (AMap.mapVals m g).map (fun kw => φ kw.2) = m.map (fun kw => φ (g kw.2)) := by
  induction m with
  | nil => simp [AMap.mapVals]
  | cons hd tl ih =>
    obtain ⟨k0, v0⟩ := hd
    simp [AMap.mapVals, ih]

theorem sum_map_add {α : Type} (l : List α) (f g : α → Nat) :
    (l.map (fun x => f x + g x)).sum = (l.map f).sum + (l.map g).sum := by
  induction l with
  | nil => simp
  | cons a tl ih => simp [ih]; omega

/-- Characterization of a completed `AppState::distribute`: the inserted
epoch, the reworked wallets, and the non-zero divisor guarantee. -/
theorem distribute_spec (s : AppState) (ei amt napr : Nat) (ts : Option Nat)
    (tm bn tx : Nat) (s' : AppState)
    (h : s.distribute ei amt napr ts tm bn tx = some s') :
    s'.epochs = AMap.insert s.epochs ei
      ⟨ei, s.apr, amt,
        (match ts with
          | some x => x - amt
          | none => AMap.sumVals (AMap.mapVals s.wallets (fun w => w.staked + w.rewards))),
        AMap.mapVals s.wallets (fun w => w.staked + w.rewards), tm, bn, tx⟩ ∧
    s'.wallets = AMap.mapVals s.wallets (fun w =>
      { w with rewards := w.rewards + amt * (w.staked + w.rewards) /
          (match ts with
            | some x => x - amt
            | none => AMap.sumVals (AMap.mapVals s.wallets (fun w => w.staked + w.rewards))) }) ∧
    (s.wallets ≠ [] →
      (match ts with
        | some x => x - amt
        | none => AMap.sumVals (AMap.mapVals s.wallets (fun w => w.staked + w.rewards))) ≠ 0) := by
  cases ts with
  | some x =>
    simp only [AppState.distribute] at h
    by_cases hx : x < amt
    · simp [hx] at h
    · simp only [hx, if_false] at h
      split at h
      · exact absurd h (by simp)
      · rename_i hcond
        rw [Option.some.injEq] at h
        subst h
        refine ⟨rfl, rfl, ?_⟩
        intro hne
        intro htot
        exact hcond ⟨hne, htot⟩
  | none =>
    simp only [AppState.distribute] at h
    split at h
    · exact absurd h (by simp)
    · rename_i hcond
      rw [Option.some.injEq] at h
      subst h
      refine ⟨rfl, rfl, ?_⟩
      intro hne
      intro htot
      exact hcond ⟨hne, htot⟩


/-! ### Claim C4 -/

/-- Claim C4: a completed reward distribution records
`Epoch.total = total_stake - minted` when the chain supplied an
authoritative total, else the sum of the per-account `staked + rewards`
snapshot, and credits every account exactly
`floor(minted * (staked + rewards) / total)`. -/
theorem c4_distribute_total_and_rewards (s : AppState) (ei amt napr : Nat)
    (ts : Option Nat) (tm bn tx : Nat) (s' : AppState)
    (h : s.distribute ei amt napr ts tm bn tx = some s') :
    ∃ ep, AMap.find s'.epochs ei = some ep ∧ ep.minted = amt ∧
      ep.total = (match ts with
        | some x => x - amt
        | none => AMap.sumVals (AMap.mapVals s.wallets (fun w => w.staked + w.rewards))) ∧
      ∀ k w, AMap.find s.wallets k = some w →
        AMap.find s'.wallets k =
          some { w with rewards := w.rewards + amt * (w.staked + w.rewards) / ep.total } := by
  cases ts with
  | some x =>
    obtain ⟨hep, hw, -⟩ := distribute_spec s ei amt napr (some x) tm bn tx s' h
    refine ⟨⟨ei, s.apr, amt, x - amt,
        AMap.mapVals s.wallets (fun w => w.staked + w.rewards), tm, bn, tx⟩,
      ?_, rfl, rfl, ?_⟩
    · rw [hep, AMap.find_insert]
      simp
    · intro k w hk
      rw [hw, AMap.find_mapVals, hk]
      rfl
  | none =>
    obtain ⟨hep, hw, -⟩ := distribute_spec s ei amt napr none tm bn tx s' h
    refine ⟨⟨ei, s.apr, amt,
        AMap.sumVals (AMap.mapVals s.wallets (fun w => w.staked + w.rewards)),
        AMap.mapVals s.wallets (fun w => w.staked + w.rewards), tm, bn, tx⟩,
      ?_, rfl, rfl, ?_⟩
    · rw [hep, AMap.find_insert]
      simp
    · intro k w hk
      rw [hw, AMap.find_mapVals, hk]
      rfl

/-- Witness for C4 at a concrete input (authoritative total `1100`,
minted `100`, one account with `staked = 1000`; divisor `1000`). -/
theorem c4_witness :
    (distState.distribute 1 100 7 (some 1100) 2 3 4 = some distSA) ∧
    (∃ ep, AMap.find distSA.epochs 1 = some ep ∧ ep.minted = 100 ∧
      ep.total = 1000 ∧
      ∀ k w, AMap.find distState.wallets k = some w →
        AMap.find distSA.wallets k =
          some { w with rewards := w.rewards + 100 * (w.staked + w.rewards) / ep.total }) := by
  refine ⟨rfl, ?_⟩
  obtain ⟨ep, h1, h2, h3, h4⟩ :=
    c4_distribute_total_and_rewards distState 1 100 7 (some 1100) 2 3 4 distSA rfl
  exact ⟨ep, h1, h2, h3, h4⟩

/-! ### Claim C5 -/

/-- Claim C5 counterexample: with the authoritative form the divisor is the
chain total minus the mint (here `150 - 100 = 50`), which can undercut the
snapshot sum (`1000`); the sole account is then credited `2000`, exceeding
`minted = 100`, so the claimed conservation bound fails. -/
theorem c5_counterexample :
    (distState.distribute 1 100 7 (some 150) 2 3 4).map sumRewards = some 2000 ∧
    ¬ (2000 ≤ sumRewards distState + 100) := by
  exact ⟨rfl, by decide⟩

/-- Claim C5 as amended: for the *legacy* distribution form (divisor equals
the snapshot sum) that completes on a non-empty ledger, the credited total
never exceeds `minted` and the rounding shortfall is below the number of
accounts.  (The authoritative form violates the bound; see the
counterexample.) -/
theorem c5_legacy_conservation (s : AppState) (ei amt napr tm bn tx : Nat)
    (s' : AppState) (h : s.distribute ei amt napr none tm bn tx = some s')
    (hne : s.wallets ≠ []) :
    sumRewards s' ≤ sumRewards s + amt ∧
    (sumRewards s + amt) - sumRewards s' < s.wallets.length := by
  obtain ⟨-, hw0, htot0⟩ := distribute_spec s ei amt napr none tm bn tx s' h
  have hw : s'.wallets = AMap.mapVals s.wallets (fun w =>
      { w with rewards := w.rewards + amt * (w.staked + w.rewards) /
          AMap.sumVals (AMap.mapVals s.wallets (fun w => w.staked + w.rewards)) }) := hw0
  have htot : AMap.sumVals (AMap.mapVals s.wallets (fun w => w.staked + w.rewards)) ≠ 0 :=
    htot0 hne
  have hsum : AMap.sumVals (AMap.mapVals s.wallets (fun w => w.staked + w.rewards))
      = (s.wallets.map (fun kw => kw.2.staked + kw.2.rewards)).sum :=
    sumVals_mapVals _ _
  have hS : 0 < (s.wallets.map (fun kw => kw.2.staked + kw.2.rewards)).sum := by omega
  have hlne : s.wallets.map (fun kw => kw.2.staked + kw.2.rewards) ≠ [] := by
    simpa using hne
  have hsr : sumRewards s' = sumRewards s +
      ((s.wallets.map (fun kw => kw.2.staked + kw.2.rewards)).map
        (fun x => amt * x /
          (s.wallets.map (fun kw => kw.2.staked + kw.2.rewards)).sum)).sum := by
    rw [sumRewards, hw, map_mapVals]
    have h1 : (s.wallets.map (fun kw =>
        ({ kw.2 with rewards := kw.2.rewards + amt * (kw.2.staked + kw.2.rewards) /
            AMap.sumVals (AMap.mapVals s.wallets (fun w => w.staked + w.rewards)) } : Wallet).rewards)).sum
        = (s.wallets.map (fun kw => kw.2.rewards + amt * (kw.2.staked + kw.2.rewards) /
            AMap.sumVals (AMap.mapVals s.wallets (fun w => w.staked + w.rewards)))).sum := rfl
    rw [h1, sum_map_add, hsum, List.map_map]
    rfl
  have hle := prorata_sum_le (s.wallets.map (fun kw => kw.2.staked + kw.2.rewards)) amt hS
  have hsf := prorata_shortfall (s.wallets.map (fun kw => kw.2.staked + kw.2.rewards)) amt hS hlne
  have hlen : (s.wallets.map (fun kw => kw.2.staked + kw.2.rewards)).length
      = s.wallets.length := List.length_map _ _
  constructor <;> omega

/-- Witness for the amended C5 at the legacy distribution over the
one-account fixture. -/
theorem c5_witness :
    (distState.distribute 1 100 7 none 2 3 4 = some distSL) ∧
    distState.wallets ≠ [] ∧
    sumRewards distSL ≤ sumRewards distState + 100 ∧
    (sumRewards distState + 100) - sumRewards distSL < distState.wallets.length := by
  have h := c5_legacy_conservation distState 1 100 7 2 3 4 distSL rfl (by decide)
  exact ⟨rfl, by decide, h.1, h.2⟩

/-! ### Claims C9 and C10 -/

/-- Claim C9: a completed unstake confirmation clears the reservation and
changes nothing else: the user's wallet keeps `staked`, `shares`,
`rewards`, `deposited`, `withdrawn`, `delegates`, `delegated` and
`voting_power` (the record update touches only `scheduled_unstake`), every
other wallet is untouched, and an absent user leaves the state unchanged. -/
theorem c9_unstaked_frame (s : AppState) (user amt : Nat) (s' : AppState)
    (h : s.unstaked user amt = some s') :
    (∀ w, AMap.find s.wallets user = some w →
        AMap.find s'.wallets user = some { w with scheduled_unstake := none }) ∧
    (∀ k, k ≠ user → AMap.find s'.wallets k = AMap.find s.wallets k) ∧
    (AMap.find s.wallets user = none → s' = s) := by
  simp only [AppState.unstaked] at h
  cases hf : AMap.find s.wallets user with
  | none =>
    rw [hf] at h
    simp only [Option.some.injEq] at h
    subst h
    refine ⟨?_, ?_, ?_⟩
    · intro w hw
      exact absurd hw (by simp)
    · intro k _
      rfl
    · intro _
      rfl
  | some w =>
    rw [hf] at h
    by_cases hz : s.get_staked_total = 0
    · simp [hz] at h
    · simp only [hz, if_false, Option.some.injEq] at h
      subst h
      refine ⟨?_, ?_, ?_⟩
      · intro w0 hw0
        cases hw0
        simp [AMap.find_insert]
      · intro k hk
        simp [AMap.find_insert, hk]
      · intro hnone
        exact absurd hnone (by simp)


/-- Witness for C9 on `reservedState`. -/
theorem c9_witness :
    (reservedState.unstaked 1 5 = some reservedOut) ∧
    AMap.find reservedOut.wallets 1 =
      some { address := 1, staked := 50, shares := 50, scheduled_unstake := none } ∧
    AMap.find reservedOut.wallets 2 = AMap.find reservedState.wallets 2 := by
  have h := c9_unstaked_frame reservedState 1 5 reservedOut rfl
  exact ⟨rfl,
    h.1 { address := 1, staked := 50, shares := 50, scheduled_unstake := some ⟨5, 5, 9⟩ } rfl,
    h.2.1 2 (by decide)⟩

/-- Claim C10: `AppState::unstaked` divides by `get_staked_total` without a
guard; with a ledger entry for `user` and a zero staked total the `U256`
division panics (modelled as `none`) instead of returning. -/
theorem c10_unstaked_div_by_zero (s : AppState) (user amt : Nat) (w : Wallet)
    (h1 : AMap.find s.wallets user = some w) (h2 : s.get_staked_total = 0) :
    s.unstaked user amt = none := by
  simp only [AppState.unstaked]
  rw [h1]
  simp [h2]


/-- Witness for C10: the panic branch is reached on `zeroStakeState`. -/
theorem c10_witness :
    (AMap.find zeroStakeState.wallets 1 = some { address := 1 }) ∧
    zeroStakeState.get_staked_total = 0 ∧
    zeroStakeState.unstaked 1 5 = none := by
  refine ⟨rfl, rfl, ?_⟩
  exact c10_unstaked_div_by_zero zeroStakeState 1 5 { address := 1 } rfl rfl

/-! ### Claims C6 and C7 -/


/-- Claim C6 counterexample: `delegate` to an absent target does return an
error, but the ledger is *not* left unchanged — the claim's frame condition
fails at this input. -/
theorem c6_counterexample :
    (cxDelegateState.delegate 1 2 99).2.isSome = true ∧
    (cxDelegateState.delegate 1 2 99).1.wallets ≠ cxDelegateState.wallets := by
  exact ⟨rfl, by decide⟩

/-- Claim C6 as amended: when `to` has no ledger entry (and `from` exists,
currently delegating elsewhere), `delegate` returns the UnknownAccount-style
error only *after* removing the old target's back-reference (recomputing its
voting power) and overwriting `from.delegates` with the new target and
`from`'s shares (zeroing `from`'s voting power). -/
theorem c6_delegate_unknown_target (s : AppState) (fA tA tm : Nat)
    (wf : Wallet) (ex : Delegation) (wt : Wallet)
    (hf : AMap.find s.wallets fA = some wf)
    (hd : wf.delegates = some ex)
    (hne : ex.address ≠ fA)
    (hex : AMap.find s.wallets ex.address = some wt)
    (ht : AMap.find s.wallets tA = none) :
    (s.delegate fA tA tm).2 = some "invalid to- wallet" ∧
    AMap.find (s.delegate fA tA tm).1.wallets fA =
      some (Wallet.update_voting_power { wf with delegates := some ⟨tA, wf.shares, tm⟩ }) ∧
    AMap.find (s.delegate fA tA tm).1.wallets ex.address =
      some (Wallet.update_voting_power
        { wt with delegated := AMap.erase wt.delegated wf.address }) := by
  have htA_fA : tA ≠ fA := by
    intro he
    rw [he, hf] at ht
    cases ht
  have htA_ex : tA ≠ ex.address := by
    intro he
    rw [he, hex] at ht
    cases ht
  have hfA_ex : fA ≠ ex.address := fun he => hne he.symm
  have h1 : AMap.find
      (AMap.modify s.wallets ex.address
        (fun old => Wallet.update_voting_power
          { old with delegated := AMap.erase old.delegated wf.address })) fA
      = some wf := by
    rw [AMap.find_modify]
    simp [hfA_ex, hf]
  have h2 : AMap.find
      (AMap.insert
        (AMap.modify s.wallets ex.address
          (fun old => Wallet.update_voting_power
            { old with delegated := AMap.erase old.delegated wf.address })) fA
        (Wallet.update_voting_power { wf with delegates := some ⟨tA, wf.shares, tm⟩ })) tA
      = none := by
    rw [AMap.find_insert]
    simp only [htA_fA, if_false]
    rw [AMap.find_modify]
    simp [htA_ex, ht]
  simp only [AppState.delegate, AppState.delegateFinish, hf, hd, hex, h1, h2]
  refine ⟨trivial, ?_, ?_⟩
  · rw [AMap.find_insert]
    simp
  · rw [AMap.find_insert]
    simp only [hne, if_false]
    rw [AMap.find_modify]
    simp [hex]

/-- Witness for the amended C6 on `cxDelegateState`. -/
theorem c6_witness :
    (cxDelegateState.delegate 1 2 99).2 = some "invalid to- wallet" ∧
    AMap.find (cxDelegateState.delegate 1 2 99).1.wallets 1 =
      some (Wallet.update_voting_power
        { address := 1, shares := 5, delegates := some ⟨2, 5, 99⟩ }) ∧
    AMap.find (cxDelegateState.delegate 1 2 99).1.wallets 3 =
      some (Wallet.update_voting_power
        { address := 3, delegated := [], voting_power := 5 }) := by
  have h := c6_delegate_unknown_target cxDelegateState 1 2 99
    { address := 1, shares := 5, delegates := some ⟨3, 5, 0⟩ } ⟨3, 5, 0⟩
    { address := 3, delegated := [(1, 5)], voting_power := 5 }
    rfl rfl (by decide) rfl rfl
  exact h


/-- Claim C7 counterexample: `undelegate` with an excessive `shares`
argument errors, but contrary to the claim it does *not* clear
`from.delegates` — the delegation record survives the call. -/
theorem c7_counterexample :
    (cxUndelegateState.undelegate 1 2 999).2.isSome = true ∧
    ((AMap.find (cxUndelegateState.undelegate 1 2 999).1.wallets 1).map
      (fun w => w.delegates.isSome)) = some true := by
  exact ⟨rfl, rfl⟩

/-- Claim C7 as amended: with a matching recorded target but
`shares > from.shares`, `undelegate` returns the InsufficientShares-style
error *after* removing `from` from the target's `delegated` map (recomputing
the target's voting power) but *before* clearing `from.delegates`, which
therefore remains set. -/
theorem c7_undelegate_insufficient (s : AppState) (fA tA sh : Nat)
    (wf : Wallet) (ex : Delegation) (wt : Wallet)
    (hf : AMap.find s.wallets fA = some wf)
    (hd : wf.delegates = some ex)
    (hex : ex.address = tA)
    (hne : tA ≠ fA)
    (ht : AMap.find s.wallets tA = some wt)
    (hsh : wf.shares < sh) :
    (s.undelegate fA tA sh).2 = some "shares amount is less than undelegated" ∧
    AMap.find (s.undelegate fA tA sh).1.wallets fA = some wf ∧
    AMap.find (s.undelegate fA tA sh).1.wallets tA =
      some (Wallet.update_voting_power
        { wt with delegated := AMap.erase wt.delegated fA }) := by
  have hfA : fA ≠ tA := Ne.symm hne
  obtain ⟨exa, exs, ext⟩ := ex
  have hex' : tA = exa := Eq.symm hex
  subst hex'
  have h1 : AMap.find
      (AMap.modify s.wallets tA
        (fun old => Wallet.update_voting_power
          { old with delegated := AMap.erase old.delegated fA })) fA = some wf := by
    rw [AMap.find_modify]
    simp [hfA, hf]
  have h3 : AMap.find
      (AMap.modify s.wallets tA
        (fun old => Wallet.update_voting_power
          { old with delegated := AMap.erase old.delegated fA })) tA
      = some (Wallet.update_voting_power
          { wt with delegated := AMap.erase wt.delegated fA }) := by
    rw [AMap.find_modify]
    simp [ht]
  refine ⟨?_, ?_, ?_⟩ <;>
    simp only [AppState.undelegate, hf, hd, AppState.undelegateFinish] <;>
    simp [h1, h3, hsh, ht]

/-- Witness for the amended C7 on `cxUndelegateState`. -/
theorem c7_witness :
    (cxUndelegateState.undelegate 1 2 999).2 =
      some "shares amount is less than undelegated" ∧
    AMap.find (cxUndelegateState.undelegate 1 2 999).1.wallets 1 =
      some { address := 1, shares := 5, delegates := some ⟨2, 5, 0⟩ } ∧
    AMap.find (cxUndelegateState.undelegate 1 2 999).1.wallets 2 =
      some (Wallet.update_voting_power { address := 2, delegated := [] }) := by
  have h := c7_undelegate_insufficient cxUndelegateState 1 2 999
    { address := 1, shares := 5, delegates := some ⟨2, 5, 0⟩ } ⟨2, 5, 0⟩
    { address := 2, delegated := [(1, 5)], voting_power := 5 }
    rfl rfl rfl (by decide) rfl (by decide)
  exact h

/-! ### Claims C2 and C8 -/

theorem materializeWallet_votings (s : AppState) (a : Nat) (e : OnChainEvent) :
    (s.materializeWallet a e).votings = s.votings := by
  unfold AppState.materializeWallet
  by_cases hc : AMap.contains s.wallets_events a <;> simp [hc]

theorem foldl_materialize_votings (l : List Nat) (s : AppState) (e : OnChainEvent) :
    (l.foldl (fun st addr => st.materializeWallet addr e) s).votings = s.votings := by
  induction l generalizing s with
  | nil => rfl
  | cons a tl ih =>
    rw [List.foldl_cons, ih, materializeWallet_votings]

theorem pushVotingEvent_votings (s : AppState) (id : Nat) (e : OnChainEvent) :
    (s.pushVotingEvent id e).votings = s.votings := by
  unfold AppState.pushVotingEvent
  by_cases hc : AMap.contains s.votings_events id <;> simp [hc]

/-- An `Api3::CastVote` event reduces to `castVote` on a prologue state
whose proposals map is untouched. -/
theorem update_castVote (s : AppState) (tm bn tx li : Nat) (lb : Option Nat)
    (agent : VotingAgent) (vid voter : Nat) (sup : Bool) (stk : Nat) :
    ∃ t : AppState, s.update ⟨.CastVote agent vid voter sup stk, tm, bn, tx, li⟩ lb
        = some (t.castVote agent vid voter sup stk) ∧ t.votings = s.votings := by
  refine ⟨_, rfl, ?_⟩
  show ((List.foldl (fun st addr => AppState.materializeWallet st addr
      ⟨.CastVote agent vid voter sup stk, tm, bn, tx, li⟩)
      (match lb with
        | some b => { s with last_block := b }
        | none => s) [voter]).pushVotingEvent (voting_to_u64 agent vid)
      ⟨.CastVote agent vid voter sup stk, tm, bn, tx, li⟩).votings = s.votings
  rw [pushVotingEvent_votings, foldl_materialize_votings]
  cases lb <;> rfl

/-- The proposals map after `castVote` when the proposal exists. -/
theorem castVote_votings (s : AppState) (agent : VotingAgent)
    (vid voter : Nat) (sup : Bool) (stk : Nat) (v : Voting)
    (hv : AMap.find s.votings (voting_to_u64 agent vid) = some v) :
    (s.castVote agent vid voter sup stk).votings =
      AMap.insert s.votings (voting_to_u64 agent vid)
        (let v1 := if sup then { v with yes := AMap.insert v.yes voter stk }
                   else { v with no := AMap.insert v.no voter stk }
         { v1 with voted_yes := AMap.sumVals v1.yes, voted_no := AMap.sumVals v1.no }) := by
  simp only [AppState.castVote, hv]

/-- Claim C2 as amended: a later vote replaces the voter's earlier vote
only within the *same* map; a switched vote leaves the earlier `yes` entry
in place, and both tallies are recomputed as the sums of their maps — so a
voter who switches sides is counted in both `voted_yes` and `voted_no`. -/
theorem c2_cast_vote_switch (s : AppState) (agent : VotingAgent)
    (vid voter w1 w2 t1 b1 x1 l1 t2 b2 x2 l2 : Nat) (lb1 lb2 : Option Nat)
    (v : Voting)
    (hv : AMap.find s.votings (voting_to_u64 agent vid) = some v) :
    ∃ s2 v', ((s.update ⟨.CastVote agent vid voter true w1, t1, b1, x1, l1⟩ lb1).bind
        (fun t => t.update ⟨.CastVote agent vid voter false w2, t2, b2, x2, l2⟩ lb2))
        = some s2 ∧
      AMap.find s2.votings (voting_to_u64 agent vid) = some v' ∧
      v'.yes = AMap.insert v.yes voter w1 ∧
      v'.no = AMap.insert v.no voter w2 ∧
      v'.voted_yes = AMap.sumVals (AMap.insert v.yes voter w1) ∧
      v'.voted_no = AMap.sumVals (AMap.insert v.no voter w2) := by
  obtain ⟨p1, hu1, hp1⟩ := update_castVote s t1 b1 x1 l1 lb1 agent vid voter true w1
  have hv1 : AMap.find p1.votings (voting_to_u64 agent vid) = some v := by
    rw [hp1, hv]
  have hc1 : (p1.castVote agent vid voter true w1).votings =
      AMap.insert p1.votings (voting_to_u64 agent vid)
        { v with yes := AMap.insert v.yes voter w1,
                 voted_yes := AMap.sumVals (AMap.insert v.yes voter w1),
                 voted_no := AMap.sumVals v.no } :=
    castVote_votings p1 agent vid voter true w1 v hv1
  obtain ⟨p2, hu2, hp2⟩ :=
    update_castVote (p1.castVote agent vid voter true w1) t2 b2 x2 l2 lb2
      agent vid voter false w2
  have hv2 : AMap.find p2.votings (voting_to_u64 agent vid) = some
      { v with yes := AMap.insert v.yes voter w1,
               voted_yes := AMap.sumVals (AMap.insert v.yes voter w1),
               voted_no := AMap.sumVals v.no } := by
    rw [hp2, hc1, AMap.find_insert]
    simp
  have hc2 : (p2.castVote agent vid voter false w2).votings =
      AMap.insert p2.votings (voting_to_u64 agent vid)
        { v with yes := AMap.insert v.yes voter w1,
                 no := AMap.insert v.no voter w2,
                 voted_yes := AMap.sumVals (AMap.insert v.yes voter w1),
                 voted_no := AMap.sumVals (AMap.insert v.no voter w2) } :=
    castVote_votings p2 agent vid voter false w2 _ hv2
  refine ⟨p2.castVote agent vid voter false w2,
    { v with yes := AMap.insert v.yes voter w1,
             no := AMap.insert v.no voter w2,
             voted_yes := AMap.sumVals (AMap.insert v.yes voter w1),
             voted_no := AMap.sumVals (AMap.insert v.no voter w2) },
    ?_, ?_, rfl, rfl, rfl, rfl⟩
  · rw [hu1]
    show (some (p1.castVote agent vid voter true w1)).bind _ = _
    rw [Option.some_bind]
    exact hu2
  · rw [hc2, AMap.find_insert]
    simp


/-- Witness for the amended C2 on `cxVoteState`. -/
theorem c2_witness :
    ∃ s2 v', (((cxVoteState.update ⟨.CastVote .Primary 1 50 true 100, 0, 0, 0, 0⟩ none).bind
        (fun t => t.update ⟨.CastVote .Primary 1 50 false 100, 0, 0, 0, 0⟩ none)))
        = some s2 ∧
      AMap.find s2.votings (voting_to_u64 .Primary 1) = some v' ∧
      v'.yes = AMap.insert ({} : Voting).yes 50 100 ∧
      v'.no = AMap.insert ({} : Voting).no 50 100 ∧
      v'.voted_yes = AMap.sumVals (AMap.insert ({} : Voting).yes 50 100) ∧
      v'.voted_no = AMap.sumVals (AMap.insert ({} : Voting).no 50 100) :=
  c2_cast_vote_switch cxVoteState .Primary 1 50 100 100 0 0 0 0 0 0 0 0 none none {} rfl


/-- Claim C2 counterexample: after voter `50` casts yes `100` then no `100`,
the proposal still carries the voter's `yes` entry and `voted_yes = 100`
(not the claimed `0` contribution); the voter is double-counted. -/
theorem c2_counterexample :
    ((applyEvents (AppState.new 1) c2Events).bind
      (fun s => AMap.find s.votings (voting_to_u64 .Primary 1))).map
      (fun v => (AMap.find v.yes 50, v.voted_yes, v.voted_no))
      = some (some 100, 100, 100) ∧ (100 : Nat) ≠ 0 := by
  exact ⟨rfl, by decide⟩

/-- Claim C8: the reducer entry point is a pure function of the prior state
and the delivered event, so folding the same ordered sequence twice from
the empty state yields identical results. -/
theorem c8_replay_deterministic (cid : Nat) (es : List EventInput)
    (r1 r2 : Option AppState)
    (h1 : applyEvents (AppState.new cid) es = r1)
    (h2 : applyEvents (AppState.new cid) es = r2) : r1 = r2 := by
  rw [← h1, ← h2]

/-- Witness for C8 on a concrete event sequence. -/
theorem c8_witness :
    applyEvents (AppState.new 1) c2Events = applyEvents (AppState.new 1) c2Events :=
  c8_replay_deterministic 1 c2Events _ _ rfl rfl


theorem vpOk_uvp (w : Wallet) : vpOk (Wallet.update_voting_power w) := rfl

theorem uvp_delegates (w : Wallet) :
    (Wallet.update_voting_power w).delegates = w.delegates := rfl

/-- Replacing one wallet with a core-equivalent one (same address, shares,
delegation fields and voting power) preserves the invariant. -/
theorem MapsWF_replace (W W' : AMap Wallet) (E : AMap (List OnChainEvent))
    (u : Nat) (w nw : Wallet)
    (hfw : AMap.find W u = some w)
    (hfind : ∀ k, AMap.find W' k = if k = u then some nw else AMap.find W k)
    (haddr : nw.address = w.address) (hsh : nw.shares = w.shares)
    (hdel : nw.delegates = w.delegates) (hdd : nw.delegated = w.delegated)
    (hvp : nw.voting_power = w.voting_power)
    (h : MapsWF W E) : MapsWF W' E := by
  have hwaddr : w.address = u := h.addr u w hfw
  constructor
  · intro k wk hk
    rw [hfind] at hk
    by_cases hku : k = u
    · rw [if_pos hku] at hk
      cases hk
      rw [haddr, hwaddr, hku]
    · rw [if_neg hku] at hk
      exact h.addr k wk hk
  · intro k wk hk
    rw [hfind] at hk
    by_cases hku : k = u
    · rw [if_pos hku] at hk
      cases hk
      have hv := h.vp u w hfw
      unfold vpOk at hv ⊢
      rw [hvp, hdel, hdd, hsh]
      exact hv
    · rw [if_neg hku] at hk
      exact h.vp k wk hk
  · intro k wk d hk hd
    rw [hfind] at hk
    by_cases hku : k = u
    · rw [if_pos hku] at hk
      cases hk
      rw [hdel] at hd
      rw [hsh]
      exact h.dsh u w d hfw hd
    · rw [if_neg hku] at hk
      exact h.dsh k wk d hk hd
  · intro t wt f v ht hf
    rw [hfind] at ht
    have hstep : ∃ wt0, AMap.find W t = some wt0 ∧ wt0.delegated = wt.delegated := by
      by_cases htu : t = u
      · rw [if_pos htu] at ht
        cases ht
        exact ⟨w, htu ▸ hfw, hdd.symm⟩
      · rw [if_neg htu] at ht
        exact ⟨wt, ht, rfl⟩
    obtain ⟨wt0, ht0, hdd0⟩ := hstep
    rw [← hdd0] at hf
    obtain ⟨wf, d, hwf, hd, ha, hs⟩ := h.backref t wt0 f v ht0 hf
    by_cases hfu : f = u
    · refine ⟨nw, d, ?_, ?_, ha, hs⟩
      · rw [hfind, if_pos hfu]
      · rw [hdel]
        have : wf = w := by
          rw [hfu, hfw] at hwf
          cases hwf
          rfl
        rw [← this]
        exact hd
    · refine ⟨wf, d, ?_, hd, ha, hs⟩
      rw [hfind, if_neg hfu]
      exact hwf
  · intro k
    rw [hfind]
    by_cases hku : k = u
    · rw [if_pos hku, hku, ← h.keys u, hfw]
      rfl
    · rw [if_neg hku]
      exact h.keys k

theorem modify_of_absent {α : Type} (m : AMap α) (u : Nat) (g : α → α)
    (h : AMap.find m u = none) : AMap.modify m u g = m := by
  induction m with
  | nil => rfl
  | cons hd tl ih =>
    obtain ⟨k0, v0⟩ := hd
    by_cases hk : u = k0
    · rw [hk] at h
      simp [AMap.find] at h
    · have h' : AMap.find tl u = none := by
        simpa [AMap.find, hk] using h
      simp [AMap.modify, Ne.symm hk, ih h']

/-- `get_mut`-style modification with a core-preserving function keeps the
invariant. -/
theorem MapsWF_modify (W : AMap Wallet) (E : AMap (List OnChainEvent))
    (u : Nat) (g : Wallet → Wallet)
    (hg : ∀ w, (g w).address = w.address ∧ (g w).shares = w.shares ∧
      (g w).delegates = w.delegates ∧ (g w).delegated = w.delegated ∧
      (g w).voting_power = w.voting_power)
    (h : MapsWF W E) : MapsWF (AMap.modify W u g) E := by
  cases hfw : AMap.find W u with
  | none =>
    rw [modify_of_absent W u g hfw]
    exact h
  | some w =>
    refine MapsWF_replace W _ E u w (g w) hfw ?_
      (hg w).1 (hg w).2.1 (hg w).2.2.1 (hg w).2.2.2.1 (hg w).2.2.2.2 h
    intro k
    rw [AMap.find_modify]
    by_cases hku : k = u
    · rw [if_pos hku, if_pos hku, hfw]
      rfl
    · rw [if_neg hku, if_neg hku]

/-- Pointwise wallet rework with per-key core-preserving functions keeps
the invariant (covers `distribute` and `set_vesting_addresses`). -/
theorem MapsWF_pointwise (W W' : AMap Wallet) (E : AMap (List OnChainEvent))
    (gk : Nat → Wallet → Wallet)
    (hfind : ∀ k, AMap.find W' k = (AMap.find W k).map (gk k))
    (hg : ∀ k w, (gk k w).address = w.address ∧ (gk k w).shares = w.shares ∧
      (gk k w).delegates = w.delegates ∧ (gk k w).delegated = w.delegated ∧
      (gk k w).voting_power = w.voting_power)
    (h : MapsWF W E) : MapsWF W' E := by
  constructor
  · intro k wk hk
    rw [hfind] at hk
    cases hw : AMap.find W k with
    | none => rw [hw] at hk; cases hk
    | some w0 =>
        rw [hw] at hk
        cases hk
        rw [(hg k w0).1]
        exact h.addr k w0 hw
  · intro k wk hk
    rw [hfind] at hk
    cases hw : AMap.find W k with
    | none => rw [hw] at hk; cases hk
    | some w0 =>
        rw [hw] at hk
        cases hk
        have hv := h.vp k w0 hw
        unfold vpOk at hv ⊢
        rw [(hg k w0).2.2.2.2, (hg k w0).2.2.1, (hg k w0).2.2.2.1, (hg k w0).2.1]
        exact hv
  · intro k wk d hk hd
    rw [hfind] at hk
    cases hw : AMap.find W k with
    | none => rw [hw] at hk; cases hk
    | some w0 =>
        rw [hw] at hk
        cases hk
        rw [(hg k w0).2.2.1] at hd
        rw [(hg k w0).2.1]
        exact h.dsh k w0 d hw hd
  · intro t wt f v ht hf
    rw [hfind] at ht
    cases hw : AMap.find W t with
    | none => rw [hw] at ht; cases ht
    | some wt0 =>
        rw [hw] at ht
        cases ht
        rw [(hg t wt0).2.2.2.1] at hf
        obtain ⟨wf, d, hwf, hd, ha, hs⟩ := h.backref t wt0 f v hw hf
        refine ⟨gk f wf, d, ?_, ?_, ha, hs⟩
        · rw [hfind, hwf]
          rfl
        · rw [(hg f wf).2.2.1]
          exact hd
  · intro k
    rw [hfind, ← h.keys k]
    cases AMap.find W k <;> rfl

/-- The store-then-refresh-back-reference tail shared by `staked` and
`scheduled_unstake` preserves the invariant, provided the reworked wallet
`w3` keeps the address and incoming map, has a recomputed voting power, and
either keeps `delegates = none` or retargets the same address with its own
new share count. -/
theorem WF_syncAndBackref (s : AppState) (user : Nat) (w w3 : Wallet)
    (hfw : AMap.find s.wallets user = some w)
    (haddr : w3.address = w.address)
    (hdd : w3.delegated = w.delegated)
    (hvp : vpOk w3)
    (hdel : (w.delegates = none ∧ w3.delegates = none) ∨
      (∃ d0, w.delegates = some d0 ∧
        w3.delegates = some ⟨d0.address, w3.shares, d0.tm⟩))
    (h : WF s) : WF (s.syncAndBackref user w3) := by
  have huser : w.address = user := h.addr user w hfw
  have haddr' : w3.address = user := by rw [haddr, huser]
  rcases hdel with ⟨hwd, h3d⟩ | ⟨d0, hwd, h3d⟩
  · -- `w3` does not delegate: only the user's wallet is replaced.
    have heq : s.syncAndBackref user w3 =
        { s with wallets := AMap.insert s.wallets user w3 } := by
      simp only [AppState.syncAndBackref, h3d]
    rw [heq]
    show MapsWF (AMap.insert s.wallets user w3) s.wallets_events
    constructor
    · intro k wk hk
      rw [AMap.find_insert] at hk
      by_cases hku : k = user
      · rw [if_pos hku] at hk
        cases hk
        rw [haddr']
        exact hku.symm
      · rw [if_neg hku] at hk
        exact h.addr k wk hk
    · intro k wk hk
      rw [AMap.find_insert] at hk
      by_cases hku : k = user
      · rw [if_pos hku] at hk
        cases hk
        exact hvp
      · rw [if_neg hku] at hk
        exact h.vp k wk hk
    · intro k wk d hk hd
      rw [AMap.find_insert] at hk
      by_cases hku : k = user
      · rw [if_pos hku] at hk
        cases hk
        rw [h3d] at hd
        cases hd
      · rw [if_neg hku] at hk
        exact h.dsh k wk d hk hd
    · intro t wt f v ht hf
      rw [AMap.find_insert] at ht
      by_cases htu : t = user
      · rw [if_pos htu] at ht
        cases ht
        rw [hdd] at hf
        obtain ⟨wfx, d', hwfx, hd', ha', hs'⟩ := h.backref user w f v hfw hf
        by_cases hfu : f = user
        · rw [hfu, hfw] at hwfx
          cases hwfx
          rw [hwd] at hd'
          cases hd'
        · refine ⟨wfx, d', ?_, hd', by rw [htu]; exact ha', hs'⟩
          rw [AMap.find_insert, if_neg hfu]
          exact hwfx
      · rw [if_neg htu] at ht
        obtain ⟨wfx, d', hwfx, hd', ha', hs'⟩ := h.backref t wt f v ht hf
        by_cases hfu : f = user
        · rw [hfu, hfw] at hwfx
          cases hwfx
          rw [hwd] at hd'
          cases hd'
        · refine ⟨wfx, d', ?_, hd', ha', hs'⟩
          rw [AMap.find_insert, if_neg hfu]
          exact hwfx
    · intro k
      rw [AMap.find_insert]
      by_cases hku : k = user
      · rw [if_pos hku, hku, ← h.keys user, hfw]
        rfl
      · rw [if_neg hku]
        exact h.keys k
  · -- `w3` delegates to `d0.address` with its new shares.
    have heq : s.syncAndBackref user w3 =
        match AMap.find (AMap.insert s.wallets user w3) d0.address with
        | none => { s with wallets := AMap.insert s.wallets user w3 }
        | some wt =>
            let wt2 := Wallet.update_voting_power
              { wt with delegated := AMap.insert wt.delegated user w3.shares }
            { s with wallets := AMap.insert (AMap.insert s.wallets user w3) d0.address wt2 } := by
      simp only [AppState.syncAndBackref, h3d]
    rw [heq]
    cases hft : AMap.find (AMap.insert s.wallets user w3) d0.address with
    | none =>
      -- Delegation target absent: the back-reference step is skipped.
      have hda_user : d0.address ≠ user := by
        intro he
        rw [he, AMap.find_insert, if_pos rfl] at hft
        cases hft
      have hda_none : AMap.find s.wallets d0.address = none := by
        rw [AMap.find_insert, if_neg hda_user] at hft
        exact hft
      show MapsWF (AMap.insert s.wallets user w3) s.wallets_events
      constructor
      · intro k wk hk
        rw [AMap.find_insert] at hk
        by_cases hku : k = user
        · rw [if_pos hku] at hk
          cases hk
          rw [haddr']
          exact hku.symm
        · rw [if_neg hku] at hk
          exact h.addr k wk hk
      · intro k wk hk
        rw [AMap.find_insert] at hk
        by_cases hku : k = user
        · rw [if_pos hku] at hk
          cases hk
          exact hvp
        · rw [if_neg hku] at hk
          exact h.vp k wk hk
      · intro k wk d hk hd
        rw [AMap.find_insert] at hk
        by_cases hku : k = user
        · rw [if_pos hku] at hk
          cases hk
          rw [h3d] at hd
          cases hd
          rfl
        · rw [if_neg hku] at hk
          exact h.dsh k wk d hk hd
      · intro t wt f v ht hf
        rw [AMap.find_insert] at ht
        by_cases htu : t = user
        · rw [if_pos htu] at ht
          cases ht
          rw [hdd] at hf
          obtain ⟨wfx, d', hwfx, hd', ha', hs'⟩ := h.backref user w f v hfw hf
          by_cases hfu : f = user
          · rw [hfu, hfw] at hwfx
            cases hwfx
            rw [hwd] at hd'
            cases hd'
            exact absurd ha' hda_user
          · refine ⟨wfx, d', ?_, hd', by rw [htu]; exact ha', hs'⟩
            rw [AMap.find_insert, if_neg hfu]
            exact hwfx
        · rw [if_neg htu] at ht
          obtain ⟨wfx, d', hwfx, hd', ha', hs'⟩ := h.backref t wt f v ht hf
          by_cases hfu : f = user
          · rw [hfu, hfw] at hwfx
            cases hwfx
            rw [hwd] at hd'
            cases hd'
            rw [ha'] at hda_none
            rw [hda_none] at ht
            cases ht
          · refine ⟨wfx, d', ?_, hd', ha', hs'⟩
            rw [AMap.find_insert, if_neg hfu]
            exact hwfx
      · intro k
        rw [AMap.find_insert]
        by_cases hku : k = user
        · rw [if_pos hku, hku, ← h.keys user, hfw]
          rfl
        · rw [if_neg hku]
          exact h.keys k
    | some wt =>
      show MapsWF (AMap.insert (AMap.insert s.wallets user w3) d0.address
        (Wallet.update_voting_power
          { wt with delegated := AMap.insert wt.delegated user w3.shares }))
        s.wallets_events
      have hfind2 : ∀ k,
          AMap.find (AMap.insert (AMap.insert s.wallets user w3) d0.address
            (Wallet.update_voting_power
              { wt with delegated := AMap.insert wt.delegated user w3.shares })) k =
          if k = d0.address then
            some (Wallet.update_voting_power
              { wt with delegated := AMap.insert wt.delegated user w3.shares })
          else if k = user then some w3 else AMap.find s.wallets k := by
        intro k
        rw [AMap.find_insert, AMap.find_insert]
      by_cases hdu : d0.address = user
      · -- the user delegates to itself: both inserts hit the same key
        have hwt : wt = w3 := by
          rw [hdu, AMap.find_insert, if_pos rfl] at hft
          cases hft
          rfl
        subst hwt
        constructor
        · intro k wk hk
          rw [hfind2] at hk
          by_cases hkd : k = d0.address
          · rw [if_pos hkd] at hk
            cases hk
            show wt.address = k
            rw [haddr']
            rw [hkd, hdu]
          · rw [if_neg hkd] at hk
            by_cases hku : k = user
            · exact absurd (hku.trans hdu.symm) hkd
            · rw [if_neg hku] at hk
              exact h.addr k wk hk
        · intro k wk hk
          rw [hfind2] at hk
          by_cases hkd : k = d0.address
          · rw [if_pos hkd] at hk
            cases hk
            exact vpOk_uvp _
          · rw [if_neg hkd] at hk
            by_cases hku : k = user
            · exact absurd (hku.trans hdu.symm) hkd
            · rw [if_neg hku] at hk
              exact h.vp k wk hk
        · intro k wk d hk hd
          rw [hfind2] at hk
          by_cases hkd : k = d0.address
          · rw [if_pos hkd] at hk
            cases hk
            rw [show (Wallet.update_voting_power
              { wt with delegated := AMap.insert wt.delegated user wt.shares }).delegates
              = wt.delegates from rfl, h3d] at hd
            cases hd
            rfl
          · rw [if_neg hkd] at hk
            by_cases hku : k = user
            · exact absurd (hku.trans hdu.symm) hkd
            · rw [if_neg hku] at hk
              exact h.dsh k wk d hk hd
        · intro t wtt f v ht hf
          rw [hfind2] at ht
          by_cases htd : t = d0.address
          · rw [if_pos htd] at ht
            cases ht
            rw [show (Wallet.update_voting_power
              { wt with delegated := AMap.insert wt.delegated user wt.shares }).delegated
              = AMap.insert wt.delegated user wt.shares from rfl,
              AMap.find_insert] at hf
            by_cases hfu : f = user
            · rw [if_pos hfu] at hf
              cases hf
              have hfind2f := hfind2 f
              rw [if_pos (hfu.trans hdu.symm)] at hfind2f
              refine ⟨_, ⟨d0.address, wt.shares, d0.tm⟩, hfind2f, ?_, ?_, rfl⟩
              · exact h3d
              · rw [htd]
            · rw [if_neg hfu] at hf
              rw [hdd] at hf
              obtain ⟨wfx, d', hwfx, hd', ha', hs'⟩ := h.backref user w f v hfw hf
              have hfd : f ≠ d0.address := fun he => hfu (he.trans hdu)
              refine ⟨wfx, d', ?_, hd', ?_, hs'⟩
              · rw [hfind2, if_neg hfd, if_neg hfu]
                exact hwfx
              · rw [htd, hdu]
                exact ha'
          · rw [if_neg htd] at ht
            by_cases htu : t = user
            · exact absurd (htu.trans hdu.symm) htd
            · rw [if_neg htu] at ht
              obtain ⟨wfx, d', hwfx, hd', ha', hs'⟩ := h.backref t wtt f v ht hf
              by_cases hfu : f = user
              · rw [hfu, hfw] at hwfx
                cases hwfx
                rw [hwd] at hd'
                cases hd'
                exact absurd (ha'.symm.trans hdu) htu
              · have hfd : f ≠ d0.address := fun he => hfu (he.trans hdu)
                refine ⟨wfx, d', ?_, hd', ha', hs'⟩
                rw [hfind2, if_neg hfd, if_neg hfu]
                exact hwfx
        · intro k
          rw [hfind2]
          by_cases hkd : k = d0.address
          · rw [if_pos hkd, hkd, hdu, ← h.keys user, hfw]
            rfl
          · rw [if_neg hkd]
            by_cases hku : k = user
            · exact absurd (hku.trans hdu.symm) hkd
            · rw [if_neg hku]
              exact h.keys k
      · -- distinct user and target
        have hftW : AMap.find s.wallets d0.address = some wt := by
          rw [AMap.find_insert, if_neg hdu] at hft
          exact hft
        have htaddr : wt.address = d0.address := h.addr d0.address wt hftW
        constructor
        · intro k wk hk
          rw [hfind2] at hk
          by_cases hkd : k = d0.address
          · rw [if_pos hkd] at hk
            cases hk
            show wt.address = k
            rw [htaddr, hkd]
          · rw [if_neg hkd] at hk
            by_cases hku : k = user
            · rw [if_pos hku] at hk
              cases hk
              rw [haddr']
              exact hku.symm
            · rw [if_neg hku] at hk
              exact h.addr k wk hk
        · intro k wk hk
          rw [hfind2] at hk
          by_cases hkd : k = d0.address
          · rw [if_pos hkd] at hk
            cases hk
            exact vpOk_uvp _
          · rw [if_neg hkd] at hk
            by_cases hku : k = user
            · rw [if_pos hku] at hk
              cases hk
              exact hvp
            · rw [if_neg hku] at hk
              exact h.vp k wk hk
        · intro k wk d hk hd
          rw [hfind2] at hk
          by_cases hkd : k = d0.address
          · rw [if_pos hkd] at hk
            cases hk
            rw [show (Wallet.update_voting_power
              { wt with delegated := AMap.insert wt.delegated user w3.shares }).delegates
              = wt.delegates from rfl] at hd
            exact h.dsh d0.address wt d hftW hd
          · rw [if_neg hkd] at hk
            by_cases hku : k = user
            · rw [if_pos hku] at hk
              cases hk
              rw [h3d] at hd
              cases hd
              rfl
            · rw [if_neg hku] at hk
              exact h.dsh k wk d hk hd
        · intro t wtt f v ht hf
          rw [hfind2] at ht
          by_cases htd : t = d0.address
          · rw [if_pos htd] at ht
            cases ht
            rw [show (Wallet.update_voting_power
              { wt with delegated := AMap.insert wt.delegated user w3.shares }).delegated
              = AMap.insert wt.delegated user w3.shares from rfl,
              AMap.find_insert] at hf
            by_cases hfu : f = user
            · rw [if_pos hfu] at hf
              cases hf
              refine ⟨w3, ⟨d0.address, w3.shares, d0.tm⟩, ?_, h3d, ?_, rfl⟩
              · rw [hfind2, if_neg (fun he => hdu ((hfu.symm.trans he).symm ▸ rfl))]
                rw [if_pos hfu]
              · rw [htd]
            · rw [if_neg hfu] at hf
              obtain ⟨wfx, d', hwfx, hd', ha', hs'⟩ :=
                h.backref d0.address wt f v hftW hf
              by_cases hfd : f = d0.address
              · have : wfx = wt := by
                  rw [hfd, hftW] at hwfx
                  cases hwfx
                  rfl
                subst this
                have hfind2f := hfind2 f
                rw [if_pos hfd] at hfind2f
                exact ⟨_, d', hfind2f, hd', by rw [htd]; exact ha', hs'⟩
              · refine ⟨wfx, d', ?_, hd', by rw [htd]; exact ha', hs'⟩
                rw [hfind2, if_neg hfd, if_neg hfu]
                exact hwfx
          · rw [if_neg htd] at ht
            by_cases htu : t = user
            · rw [if_pos htu] at ht
              cases ht
              rw [hdd] at hf
              obtain ⟨wfx, d', hwfx, hd', ha', hs'⟩ := h.backref user w f v hfw hf
              by_cases hfu : f = user
              · rw [hfu, hfw] at hwfx
                cases hwfx
                rw [hwd] at hd'
                cases hd'
                exact absurd ha' hdu
              · by_cases hfd : f = d0.address
                · have : wfx = wt := by
                    rw [hfd, hftW] at hwfx
                    cases hwfx
                    rfl
                  subst this
                  have hfind2f := hfind2 f
                  rw [if_pos hfd] at hfind2f
                  exact ⟨_, d', hfind2f, hd', by rw [htu]; exact ha', hs'⟩
                · refine ⟨wfx, d', ?_, hd', by rw [htu]; exact ha', hs'⟩
                  rw [hfind2, if_neg hfd, if_neg hfu]
                  exact hwfx
            · rw [if_neg htu] at ht
              obtain ⟨wfx, d', hwfx, hd', ha', hs'⟩ := h.backref t wtt f v ht hf
              by_cases hfu : f = user
              · rw [hfu, hfw] at hwfx
                cases hwfx
                rw [hwd] at hd'
                cases hd'
                exact absurd ha' (fun he => htd (he ▸ rfl) |>.elim)
              · by_cases hfd : f = d0.address
                · have : wfx = wt := by
                    rw [hfd, hftW] at hwfx
                    cases hwfx
                    rfl
                  subst this
                  have hfind2f := hfind2 f
                  rw [if_pos hfd] at hfind2f
                  exact ⟨_, d', hfind2f, hd', ha', hs'⟩
                · refine ⟨wfx, d', ?_, hd', ha', hs'⟩
                  rw [hfind2, if_neg hfd, if_neg hfu]
                  exact hwfx
        · intro k
          rw [hfind2]
          by_cases hkd : k = d0.address
          · rw [if_pos hkd, hkd, ← h.keys d0.address, hftW]
            rfl
          · rw [if_neg hkd]
            by_cases hku : k = user
            · rw [if_pos hku, hku, ← h.keys user, hfw]
              rfl
            · rw [if_neg hku]
              exact h.keys k

/-- Removing the back-reference keyed `fA` from wallet `u` (the shape of the
old-delegation cleanup in `delegate`/`undelegate`) preserves the invariant,
and — when `fA`'s recorded target is `u` — leaves no wallet holding an
incoming entry keyed `fA`. -/
theorem MapsWF_removeBackref (W : AMap Wallet) (E : AMap (List OnChainEvent))
    (u fA : Nat) (wf : Wallet)
    (hfwf : AMap.find W fA = some wf)
    (hwd : ∀ d, wf.delegates = some d → d.address = u)
    (h : MapsWF W E) :
    MapsWF (AMap.modify W u (fun old => Wallet.update_voting_power
      { old with delegated := AMap.erase old.delegated fA })) E ∧
    NoIncoming (AMap.modify W u (fun old => Wallet.update_voting_power
      { old with delegated := AMap.erase old.delegated fA })) fA := by
  have hfind : ∀ k, AMap.find (AMap.modify W u (fun old => Wallet.update_voting_power
      { old with delegated := AMap.erase old.delegated fA })) k =
      if k = u then (AMap.find W k).map (fun old => Wallet.update_voting_power
        { old with delegated := AMap.erase old.delegated fA })
      else AMap.find W k := by
    intro k
    rw [AMap.find_modify]
    by_cases hku : k = u
    · rw [if_pos hku, if_pos hku, hku]
    · rw [if_neg hku, if_neg hku]
  constructor
  · constructor
    · intro k wk hk
      rw [hfind] at hk
      by_cases hku : k = u
      · rw [if_pos hku] at hk
        cases hw : AMap.find W k with
        | none => rw [hw] at hk; cases hk
        | some w0 =>
            rw [hw] at hk
            cases hk
            exact h.addr k w0 hw
      · rw [if_neg hku] at hk
        exact h.addr k wk hk
    · intro k wk hk
      rw [hfind] at hk
      by_cases hku : k = u
      · rw [if_pos hku] at hk
        cases hw : AMap.find W k with
        | none => rw [hw] at hk; cases hk
        | some w0 =>
            rw [hw] at hk
            cases hk
            exact vpOk_uvp _
      · rw [if_neg hku] at hk
        exact h.vp k wk hk
    · intro k wk d hk hd
      rw [hfind] at hk
      by_cases hku : k = u
      · rw [if_pos hku] at hk
        cases hw : AMap.find W k with
        | none => rw [hw] at hk; cases hk
        | some w0 =>
            rw [hw] at hk
            cases hk
            exact h.dsh k w0 d hw hd
      · rw [if_neg hku] at hk
        exact h.dsh k wk d hk hd
    · intro t wt f v ht hf
      rw [hfind] at ht
      have hstep : ∃ wt0, AMap.find W t = some wt0 ∧
          AMap.find wt0.delegated f = some v := by
        by_cases htu : t = u
        · rw [if_pos htu] at ht
          cases hw : AMap.find W t with
          | none => rw [hw] at ht; cases ht
          | some w0 =>
              rw [hw] at ht
              cases ht
              rw [show (Wallet.update_voting_power
                { w0 with delegated := AMap.erase w0.delegated fA }).delegated
                = AMap.erase w0.delegated fA from rfl, AMap.find_erase] at hf
              by_cases hffA : f = fA
              · rw [if_pos hffA] at hf
                cases hf
              · rw [if_neg hffA] at hf
                exact ⟨w0, rfl, hf⟩
        · rw [if_neg htu] at ht
          exact ⟨wt, ht, hf⟩
      obtain ⟨wt0, hw0, hf0⟩ := hstep
      obtain ⟨wfx, d', hwfx, hd', ha', hs'⟩ := h.backref t wt0 f v hw0 hf0
      by_cases hfu : f = u
      · refine ⟨Wallet.update_voting_power
          { wfx with delegated := AMap.erase wfx.delegated fA }, d', ?_, hd', ha', hs'⟩
        rw [hfind, if_pos hfu, hwfx]
        rfl
      · refine ⟨wfx, d', ?_, hd', ha', hs'⟩
        rw [hfind, if_neg hfu]
        exact hwfx
    · intro k
      rw [hfind]
      by_cases hku : k = u
      · rw [if_pos hku, ← h.keys k]
        cases AMap.find W k <;> rfl
      · rw [if_neg hku]
        exact h.keys k
  · intro t wt ht
    rw [hfind] at ht
    by_cases htu : t = u
    · rw [if_pos htu] at ht
      cases hw : AMap.find W t with
      | none => rw [hw] at ht; cases ht
      | some w0 =>
          rw [hw] at ht
          cases ht
          rw [show (Wallet.update_voting_power
            { w0 with delegated := AMap.erase w0.delegated fA }).delegated
            = AMap.erase w0.delegated fA from rfl, AMap.find_erase, if_pos rfl]
    · rw [if_neg htu] at ht
      cases hcon : AMap.find wt.delegated fA with
      | none => rfl
      | some v =>
          obtain ⟨wfx, d', hwfx, hd', ha', hs'⟩ := h.backref t wt fA v ht hcon
          have : wfx = wf := by
            rw [hfwf] at hwfx
            cases hwfx
            rfl
          subst this
          rw [hwd d' hd'] at ha'
          exact absurd ha'.symm htu

/-- When `fA` is not delegating at all, no wallet holds an incoming entry
keyed `fA`. -/
theorem NoIncoming_of_none (W : AMap Wallet) (E : AMap (List OnChainEvent))
    (fA : Nat) (wf : Wallet)
    (hfwf : AMap.find W fA = some wf)
    (hwd : wf.delegates = none)
    (h : MapsWF W E) : NoIncoming W fA := by
  intro t wt ht
  cases hcon : AMap.find wt.delegated fA with
  | none => rfl
  | some v =>
      obtain ⟨wfx, d', hwfx, hd', ha', hs'⟩ := h.backref t wt fA v ht hcon
      have : wfx = wf := by
        rw [hfwf] at hwfx
        cases hwfx
        rfl
      subst this
      rw [hwd] at hd'
      cases hd'


/-- The overwrite-then-backref tail of `delegate` preserves the invariant
once no wallet holds a stale incoming entry keyed by the delegator. -/
theorem WF_delegateFinish (s : AppState) (fA tA tm : Nat)
    (hni : NoIncoming s.wallets fA)
    (h : WF s) : WF (s.delegateFinish fA tA tm fA).1 := by
  unfold AppState.delegateFinish
  split
  · exact h
  · rename_i wf1 hfw
    have haddr1 : wf1.address = fA := h.addr fA wf1 hfw
    split
    · rename_i hft
      show MapsWF (AMap.insert s.wallets fA (Wallet.update_voting_power
        { wf1 with delegates := some ⟨tA, wf1.shares, tm⟩ })) s.wallets_events
      constructor
      · intro k wk hk
        rw [AMap.find_insert] at hk
        by_cases hkf : k = fA
        · rw [if_pos hkf] at hk
          cases hk
          show wf1.address = k
          rw [haddr1, hkf]
        · rw [if_neg hkf] at hk
          exact h.addr k wk hk
      · intro k wk hk
        rw [AMap.find_insert] at hk
        by_cases hkf : k = fA
        · rw [if_pos hkf] at hk
          cases hk
          exact vpOk_uvp _
        · rw [if_neg hkf] at hk
          exact h.vp k wk hk
      · intro k wk d hk hd
        rw [AMap.find_insert] at hk
        by_cases hkf : k = fA
        · rw [if_pos hkf] at hk
          cases hk
          cases hd
          rfl
        · rw [if_neg hkf] at hk
          exact h.dsh k wk d hk hd
      · intro t wt0 f v ht hf
        rw [AMap.find_insert] at ht
        by_cases htf : t = fA
        · rw [if_pos htf] at ht
          cases ht
          rw [show (Wallet.update_voting_power
            { wf1 with delegates := some ⟨tA, wf1.shares, tm⟩ }).delegated
            = wf1.delegated from rfl] at hf
          by_cases hffA : f = fA
          · rw [hffA, hni fA wf1 hfw] at hf
            cases hf
          · obtain ⟨wfx, d', hwfx, hd', ha', hs'⟩ := h.backref fA wf1 f v hfw hf
            refine ⟨wfx, d', ?_, hd', by rw [htf]; exact ha', hs'⟩
            rw [AMap.find_insert, if_neg hffA]
            exact hwfx
        · rw [if_neg htf] at ht
          by_cases hffA : f = fA
          · rw [hffA, hni t wt0 ht] at hf
            cases hf
          · obtain ⟨wfx, d', hwfx, hd', ha', hs'⟩ := h.backref t wt0 f v ht hf
            refine ⟨wfx, d', ?_, hd', ha', hs'⟩
            rw [AMap.find_insert, if_neg hffA]
            exact hwfx
      · intro k
        rw [AMap.find_insert]
        by_cases hkf : k = fA
        · rw [if_pos hkf, hkf, ← h.keys fA, hfw]
          rfl
        · rw [if_neg hkf]
          exact h.keys k
    · rename_i wt hft
      have hfind2 : ∀ k,
          AMap.find (AMap.insert (AMap.insert s.wallets fA
            (Wallet.update_voting_power
              { wf1 with delegates := some ⟨tA, wf1.shares, tm⟩ })) tA
            (Wallet.update_voting_power
              { wt with delegated := AMap.insert wt.delegated fA wf1.shares })) k =
          if k = tA then
            some (Wallet.update_voting_power
              { wt with delegated := AMap.insert wt.delegated fA wf1.shares })
          else if k = fA then
            some (Wallet.update_voting_power
              { wf1 with delegates := some ⟨tA, wf1.shares, tm⟩ })
          else AMap.find s.wallets k := by
        intro k
        rw [AMap.find_insert, AMap.find_insert]
      show MapsWF (AMap.insert (AMap.insert s.wallets fA
        (Wallet.update_voting_power
          { wf1 with delegates := some ⟨tA, wf1.shares, tm⟩ })) tA
        (Wallet.update_voting_power
          { wt with delegated := AMap.insert wt.delegated fA wf1.shares }))
        s.wallets_events
      by_cases htf : tA = fA
      · -- self-delegation: both inserts hit the same key
        have hwt : wt = Wallet.update_voting_power
            { wf1 with delegates := some ⟨tA, wf1.shares, tm⟩ } := by
          have h' : AMap.find (AMap.insert s.wallets fA (Wallet.update_voting_power
              { wf1 with delegates := some ⟨tA, wf1.shares, tm⟩ })) tA
              = some (Wallet.update_voting_power
                { wf1 with delegates := some ⟨tA, wf1.shares, tm⟩ }) := by
            rw [AMap.find_insert, if_pos htf]
          rw [h'] at hft
          cases hft
          rfl
        subst hwt
        constructor
        · intro k wk hk
          rw [hfind2] at hk
          by_cases hkt : k = tA
          · rw [if_pos hkt] at hk
            cases hk
            show wf1.address = k
            rw [haddr1, hkt, htf]
          · rw [if_neg hkt] at hk
            by_cases hkf : k = fA
            · exact absurd (hkf.trans htf.symm) hkt
            · rw [if_neg hkf] at hk
              exact h.addr k wk hk
        · intro k wk hk
          rw [hfind2] at hk
          by_cases hkt : k = tA
          · rw [if_pos hkt] at hk
            cases hk
            exact vpOk_uvp _
          · rw [if_neg hkt] at hk
            by_cases hkf : k = fA
            · exact absurd (hkf.trans htf.symm) hkt
            · rw [if_neg hkf] at hk
              exact h.vp k wk hk
        · intro k wk d hk hd
          rw [hfind2] at hk
          by_cases hkt : k = tA
          · rw [if_pos hkt] at hk
            cases hk
            cases hd
            rfl
          · rw [if_neg hkt] at hk
            by_cases hkf : k = fA
            · exact absurd (hkf.trans htf.symm) hkt
            · rw [if_neg hkf] at hk
              exact h.dsh k wk d hk hd
        · intro t wt0 f v ht hf
          rw [hfind2] at ht
          by_cases htt : t = tA
          · rw [if_pos htt] at ht
            cases ht
            rw [show (Wallet.update_voting_power
              { Wallet.update_voting_power
                  { wf1 with delegates := some ⟨tA, wf1.shares, tm⟩ } with
                delegated := AMap.insert (Wallet.update_voting_power
                  { wf1 with delegates := some ⟨tA, wf1.shares, tm⟩ }).delegated fA
                  wf1.shares }).delegated
              = AMap.insert wf1.delegated fA wf1.shares from rfl,
              AMap.find_insert] at hf
            by_cases hffA : f = fA
            · rw [if_pos hffA] at hf
              cases hf
              have hfind2f := hfind2 f
              rw [if_pos (hffA.trans htf.symm)] at hfind2f
              refine ⟨_, ⟨tA, wf1.shares, tm⟩, hfind2f, rfl, ?_, rfl⟩
              rw [htt]
            · rw [if_neg hffA] at hf
              obtain ⟨wfx, d', hwfx, hd', ha', hs'⟩ := h.backref fA wf1 f v hfw hf
              have hfnt : f ≠ tA := fun he => hffA (he.trans htf)
              refine ⟨wfx, d', ?_, hd', ?_, hs'⟩
              · rw [hfind2, if_neg hfnt, if_neg hffA]
                exact hwfx
              · rw [htt, htf]
                exact ha'
          · rw [if_neg htt] at ht
            by_cases htfa : t = fA
            · exact absurd (htfa.trans htf.symm) htt
            · rw [if_neg htfa] at ht
              by_cases hffA : f = fA
              · rw [hffA, hni t wt0 ht] at hf
                cases hf
              · obtain ⟨wfx, d', hwfx, hd', ha', hs'⟩ := h.backref t wt0 f v ht hf
                have hfnt : f ≠ tA := fun he => hffA (he.trans htf)
                refine ⟨wfx, d', ?_, hd', ha', hs'⟩
                rw [hfind2, if_neg hfnt, if_neg hffA]
                exact hwfx
        · intro k
          rw [hfind2]
          by_cases hkt : k = tA
          · rw [if_pos hkt, hkt, htf, ← h.keys fA, hfw]
            rfl
          · rw [if_neg hkt]
            by_cases hkf : k = fA
            · exact absurd (hkf.trans htf.symm) hkt
            · rw [if_neg hkf]
              exact h.keys k
      · -- distinct delegator and target
        have hftW : AMap.find s.wallets tA = some wt := by
          rw [AMap.find_insert, if_neg htf] at hft
          exact hft
        have htaddr : wt.address = tA := h.addr tA wt hftW
        constructor
        · intro k wk hk
          rw [hfind2] at hk
          by_cases hkt : k = tA
          · rw [if_pos hkt] at hk
            cases hk
            show wt.address = k
            rw [htaddr, hkt]
          · rw [if_neg hkt] at hk
            by_cases hkf : k = fA
            · rw [if_pos hkf] at hk
              cases hk
              show wf1.address = k
              rw [haddr1, hkf]
            · rw [if_neg hkf] at hk
              exact h.addr k wk hk
        · intro k wk hk
          rw [hfind2] at hk
          by_cases hkt : k = tA
          · rw [if_pos hkt] at hk
            cases hk
            exact vpOk_uvp _
          · rw [if_neg hkt] at hk
            by_cases hkf : k = fA
            · rw [if_pos hkf] at hk
              cases hk
              exact vpOk_uvp _
            · rw [if_neg hkf] at hk
              exact h.vp k wk hk
        · intro k wk d hk hd
          rw [hfind2] at hk
          by_cases hkt : k = tA
          · rw [if_pos hkt] at hk
            cases hk
            rw [show (Wallet.update_voting_power
              { wt with delegated := AMap.insert wt.delegated fA wf1.shares }).delegates
              = wt.delegates from rfl] at hd
            exact h.dsh tA wt d hftW hd
          · rw [if_neg hkt] at hk
            by_cases hkf : k = fA
            · rw [if_pos hkf] at hk
              cases hk
              cases hd
              rfl
            · rw [if_neg hkf] at hk
              exact h.dsh k wk d hk hd
        · intro t wt0 f v ht hf
          rw [hfind2] at ht
          by_cases htt : t = tA
          · rw [if_pos htt] at ht
            cases ht
            rw [show (Wallet.update_voting_power
              { wt with delegated := AMap.insert wt.delegated fA wf1.shares }).delegated
              = AMap.insert wt.delegated fA wf1.shares from rfl,
              AMap.find_insert] at hf
            by_cases hffA : f = fA
            · rw [if_pos hffA] at hf
              cases hf
              have hfnt : f ≠ tA := fun he => htf (he.symm.trans hffA)
              have hfind2f := hfind2 f
              rw [if_neg hfnt, if_pos hffA] at hfind2f
              refine ⟨_, ⟨tA, wf1.shares, tm⟩, hfind2f, rfl, ?_, rfl⟩
              rw [htt]
            · rw [if_neg hffA] at hf
              obtain ⟨wfx, d', hwfx, hd', ha', hs'⟩ := h.backref tA wt f v hftW hf
              by_cases hfnt : f = tA
              · have : wfx = wt := by
                  rw [hfnt, hftW] at hwfx
                  cases hwfx
                  rfl
                subst this
                have hfind2f := hfind2 f
                rw [if_pos hfnt] at hfind2f
                exact ⟨_, d', hfind2f, hd', by rw [htt]; exact ha', hs'⟩
              · refine ⟨wfx, d', ?_, hd', by rw [htt]; exact ha', hs'⟩
                rw [hfind2, if_neg hfnt, if_neg hffA]
                exact hwfx
          · rw [if_neg htt] at ht
            by_cases htfa : t = fA
            · rw [if_pos htfa] at ht
              cases ht
              rw [show (Wallet.update_voting_power
                { wf1 with delegates := some ⟨tA, wf1.shares, tm⟩ }).delegated
                = wf1.delegated from rfl] at hf
              by_cases hffA : f = fA
              · rw [hffA, hni fA wf1 hfw] at hf
                cases hf
              · obtain ⟨wfx, d', hwfx, hd', ha', hs'⟩ := h.backref fA wf1 f v hfw hf
                by_cases hfnt : f = tA
                · have : wfx = wt := by
                    rw [hfnt, hftW] at hwfx
                    cases hwfx
                    rfl
                  subst this
                  have hfind2f := hfind2 f
                  rw [if_pos hfnt] at hfind2f
                  exact ⟨_, d', hfind2f, hd', by rw [htfa]; exact ha', hs'⟩
                · refine ⟨wfx, d', ?_, hd', by rw [htfa]; exact ha', hs'⟩
                  rw [hfind2, if_neg hfnt, if_neg hffA]
                  exact hwfx
            · rw [if_neg htfa] at ht
              by_cases hffA : f = fA
              · rw [hffA, hni t wt0 ht] at hf
                cases hf
              · obtain ⟨wfx, d', hwfx, hd', ha', hs'⟩ := h.backref t wt0 f v ht hf
                by_cases hfnt : f = tA
                · have : wfx = wt := by
                    rw [hfnt, hftW] at hwfx
                    cases hwfx
                    rfl
                  subst this
                  have hfind2f := hfind2 f
                  rw [if_pos hfnt] at hfind2f
                  exact ⟨_, d', hfind2f, hd', ha', hs'⟩
                · refine ⟨wfx, d', ?_, hd', ha', hs'⟩
                  rw [hfind2, if_neg hfnt, if_neg hffA]
                  exact hwfx
        · intro k
          rw [hfind2]
          by_cases hkt : k = tA
          · rw [if_pos hkt, hkt, ← h.keys tA, hftW]
            rfl
          · rw [if_neg hkt]
            by_cases hkf : k = fA
            · rw [if_pos hkf, hkf, ← h.keys fA, hfw]
              rfl
            · rw [if_neg hkf]
              exact h.keys k

/-- The shares-check-then-clear tail of `undelegate` preserves the
invariant once no wallet holds an incoming entry keyed by the delegator. -/
theorem WF_undelegateFinish (s : AppState) (fA sh : Nat)
    (hni : NoIncoming s.wallets fA)
    (h : WF s) : WF (s.undelegateFinish fA sh).1 := by
  unfold AppState.undelegateFinish
  split
  · exact h
  · rename_i wf1 hfw
    have haddr1 : wf1.address = fA := h.addr fA wf1 hfw
    by_cases hsh : wf1.shares < sh
    · rw [if_pos hsh]
      exact h
    · rw [if_neg hsh]
      show MapsWF (AMap.insert s.wallets fA
        (Wallet.update_voting_power { wf1 with delegates := none })) s.wallets_events
      constructor
      · intro k wk hk
        rw [AMap.find_insert] at hk
        by_cases hkf : k = fA
        · rw [if_pos hkf] at hk
          cases hk
          show wf1.address = k
          rw [haddr1, hkf]
        · rw [if_neg hkf] at hk
          exact h.addr k wk hk
      · intro k wk hk
        rw [AMap.find_insert] at hk
        by_cases hkf : k = fA
        · rw [if_pos hkf] at hk
          cases hk
          exact vpOk_uvp _
        · rw [if_neg hkf] at hk
          exact h.vp k wk hk
      · intro k wk d hk hd
        rw [AMap.find_insert] at hk
        by_cases hkf : k = fA
        · rw [if_pos hkf] at hk
          cases hk
          cases hd
        · rw [if_neg hkf] at hk
          exact h.dsh k wk d hk hd
      · intro t wt0 f v ht hf
        rw [AMap.find_insert] at ht
        by_cases htf : t = fA
        · rw [if_pos htf] at ht
          cases ht
          rw [show (Wallet.update_voting_power
            { wf1 with delegates := none }).delegated = wf1.delegated from rfl] at hf
          by_cases hffA : f = fA
          · rw [hffA, hni fA wf1 hfw] at hf
            cases hf
          · obtain ⟨wfx, d', hwfx, hd', ha', hs'⟩ := h.backref fA wf1 f v hfw hf
            refine ⟨wfx, d', ?_, hd', by rw [htf]; exact ha', hs'⟩
            rw [AMap.find_insert, if_neg hffA]
            exact hwfx
        · rw [if_neg htf] at ht
          by_cases hffA : f = fA
          · rw [hffA, hni t wt0 ht] at hf
            cases hf
          · obtain ⟨wfx, d', hwfx, hd', ha', hs'⟩ := h.backref t wt0 f v ht hf
            refine ⟨wfx, d', ?_, hd', ha', hs'⟩
            rw [AMap.find_insert, if_neg hffA]
            exact hwfx
      · intro k
        rw [AMap.find_insert]
        by_cases hkf : k = fA
        · rw [if_pos hkf, hkf, ← h.keys fA, hfw]
          rfl
        · rw [if_neg hkf]
          exact h.keys k

/-- `AppState::delegate` preserves the ledger invariant on every path,
error paths included. -/
theorem WF_delegate (s : AppState) (fA tA tm : Nat) (h : WF s) :
    WF (s.delegate fA tA tm).1 := by
  unfold AppState.delegate
  split
  · exact h
  · rename_i wf hfw
    have haddr : wf.address = fA := h.addr fA wf hfw
    split
    · -- no previous delegation
      have hni : NoIncoming s.wallets fA := by
        rename_i hwdnone
        exact NoIncoming_of_none s.wallets s.wallets_events fA wf hfw hwdnone h
      rw [haddr]
      exact WF_delegateFinish s fA tA tm hni h
    · rename_i existing hwd
      split
      · rename_i hext
        obtain ⟨hWF1, hni1⟩ := MapsWF_removeBackref s.wallets s.wallets_events
          existing.address fA wf hfw
          (fun d hd => by rw [hwd] at hd; cases hd; rfl) h
        rw [haddr]
        exact WF_delegateFinish { s with wallets := AMap.modify s.wallets existing.address (fun old => Wallet.update_voting_power { old with delegated := AMap.erase old.delegated fA }) } fA tA tm hni1 hWF1
      · exact h

/-- `AppState::undelegate` preserves the ledger invariant on every path,
error paths included. -/
theorem WF_undelegate (s : AppState) (fA tA sh : Nat) (h : WF s) :
    WF (s.undelegate fA tA sh).1 := by
  unfold AppState.undelegate
  split
  · exact h
  · rename_i wf hfw
    split
    · rename_i existing hwd
      by_cases hmm : existing.address ≠ tA
      · rw [if_pos hmm]
        exact h
      · rw [if_neg hmm]
        split
        · exact h
        · rename_i wold hext
          obtain ⟨hWF1, hni1⟩ := MapsWF_removeBackref s.wallets s.wallets_events
            existing.address fA wf hfw
            (fun d hd => by rw [hwd] at hd; cases hd; rfl) h
          exact WF_undelegateFinish { s with wallets := AMap.modify s.wallets existing.address (fun old => Wallet.update_voting_power { old with delegated := AMap.erase old.delegated fA }) } fA sh hni1 hWF1
    · rename_i hwdnone
      have hni : NoIncoming s.wallets fA :=
        NoIncoming_of_none s.wallets s.wallets_events fA wf hfw hwdnone h
      exact WF_undelegateFinish s fA sh hni h

/-- Shape of the `delegates` field after the share-refresh `Option.map` that
`staked` and `scheduled_unstake` perform before the voting-power refresh. -/
theorem delegates_shape (w w3 : Wallet) (n : Nat)
    (hd : w3.delegates = Option.map (fun d => { d with shares := n }) w.delegates)
    (hs : w3.shares = n) :
    (w.delegates = none ∧ w3.delegates = none) ∨
    (∃ d0, w.delegates = some d0 ∧
      w3.delegates = some ⟨d0.address, w3.shares, d0.tm⟩) := by
  cases hwd : w.delegates with
  | none =>
      left
      refine ⟨rfl, ?_⟩
      rw [hd, hwd]
      rfl
  | some d0 =>
      right
      refine ⟨d0, rfl, ?_⟩
      rw [hd, hwd, hs]
      rfl

/-- `AppState::staked` preserves the ledger invariant. -/
theorem WF_staked (s : AppState) (user amount shares : Nat) (h : WF s) :
    WF (s.staked user amount shares) := by
  unfold AppState.staked
  split
  · exact h
  · rename_i w hfw
    refine WF_syncAndBackref s user w _ hfw rfl rfl (vpOk_uvp _) ?_ h
    exact delegates_shape w _ _ rfl rfl

/-- `AppState::scheduled_unstake` preserves the ledger invariant whenever it
completes (the `Err`/`exit` paths are `none`). -/
theorem WF_scheduled_unstake (s : AppState) (user amount shares sf : Nat)
    (s' : AppState) (h : WF s)
    (hs' : s.scheduled_unstake user amount shares sf = some s') : WF s' := by
  unfold AppState.scheduled_unstake at hs'
  split at hs'
  · cases hs'
  · rename_i w hfw
    by_cases hsh : w.shares < shares
    · rw [if_pos hsh] at hs'
      cases hs'
    · rw [if_neg hsh] at hs'
      have h2 := Option.some.inj hs'
      subst h2
      refine WF_syncAndBackref s user w _ hfw rfl rfl (vpOk_uvp _) ?_ h
      exact delegates_shape w _ _ rfl rfl

/-- `AppState::unstaked` preserves the ledger invariant whenever it completes
(the division-by-zero panic is `none`). -/
theorem WF_unstaked (s : AppState) (user amount : Nat)
    (s' : AppState) (h : WF s)
    (hs' : s.unstaked user amount = some s') : WF s' := by
  simp only [AppState.unstaked] at hs'
  cases hf : AMap.find s.wallets user with
  | none =>
      rw [hf] at hs'
      simp only [Option.some.injEq] at hs'
      subst hs'
      exact h
  | some w =>
      rw [hf] at hs'
      by_cases hz : s.get_staked_total = 0
      · simp [hz] at hs'
      · simp only [hz, if_false, Option.some.injEq] at hs'
        subst hs'
        show MapsWF (AMap.insert s.wallets user { w with scheduled_unstake := none })
          s.wallets_events
        refine MapsWF_replace s.wallets _ s.wallets_events user w
          { w with scheduled_unstake := none } hf ?_ rfl rfl rfl rfl rfl h
        intro k
        exact AMap.find_insert _ _ _ _

/-- `AppState::distribute` preserves the ledger invariant whenever it
completes: the per-account update only adds rewards, which the invariant
does not constrain. -/
theorem WF_distribute (s : AppState) (ei amount napr : Nat) (ts : Option Nat)
    (tm bn tx : Nat) (s' : AppState) (h : WF s)
    (hs' : s.distribute ei amount napr ts tm bn tx = some s') : WF s' := by
  simp only [AppState.distribute] at hs'
  split at hs'
  · cases hs'
  · rename_i total htot
    split at hs'
    · cases hs'
    · simp only [Option.some.injEq] at hs'
      subst hs'
      show MapsWF (AMap.mapVals s.wallets _) s.wallets_events
      refine MapsWF_pointwise s.wallets _ s.wallets_events _
        (fun k => AMap.find_mapVals _ _ _)
        (fun k w => ⟨rfl, rfl, rfl, rfl, rfl⟩) h

/-- The wallet-map side of the invariant only depends on the event map
through key containment. -/
theorem MapsWF_events_congr (W : AMap Wallet) (E E' : AMap (List OnChainEvent))
    (hE : ∀ k, (AMap.find E' k).isSome = (AMap.find E k).isSome)
    (h : MapsWF W E) : MapsWF W E' := by
  refine ⟨h.addr, h.vp, h.dsh, h.backref, ?_⟩
  intro k
  rw [hE k]
  exact h.keys k

/-- First-seen materialization: inserting a freshly minted default wallet and
an empty event log under the same new key preserves the invariant. -/
theorem MapsWF_newWallet (W : AMap Wallet) (E : AMap (List OnChainEvent))
    (a tm : Nat)
    (habs : AMap.find W a = none)
    (h : MapsWF W E) :
    MapsWF (AMap.insert W a { address := a, created_at := tm })
      (AMap.insert E a []) := by
  constructor
  · intro k wk hk
    rw [AMap.find_insert] at hk
    by_cases hka : k = a
    · rw [if_pos hka] at hk
      cases hk
      exact hka.symm
    · rw [if_neg hka] at hk
      exact h.addr k wk hk
  · intro k wk hk
    rw [AMap.find_insert] at hk
    by_cases hka : k = a
    · rw [if_pos hka] at hk
      cases hk
      rfl
    · rw [if_neg hka] at hk
      exact h.vp k wk hk
  · intro k wk d hk hd
    rw [AMap.find_insert] at hk
    by_cases hka : k = a
    · rw [if_pos hka] at hk
      cases hk
      cases hd
    · rw [if_neg hka] at hk
      exact h.dsh k wk d hk hd
  · intro t wt f v ht hf
    rw [AMap.find_insert] at ht
    by_cases hta : t = a
    · rw [if_pos hta] at ht
      cases ht
      cases hf
    · rw [if_neg hta] at ht
      obtain ⟨wfx, d, hwfx, hd, ha, hsv⟩ := h.backref t wt f v ht hf
      by_cases hfa : f = a
      · rw [hfa, habs] at hwfx
        cases hwfx
      · refine ⟨wfx, d, ?_, hd, ha, hsv⟩
        rw [AMap.find_insert, if_neg hfa]
        exact hwfx
  · intro k
    rw [AMap.find_insert, AMap.find_insert]
    by_cases hka : k = a
    · rw [if_pos hka, if_pos hka]
      rfl
    · rw [if_neg hka, if_neg hka]
      exact h.keys k

/-- Appending to one key's event log keeps every key's presence. -/
theorem isSome_find_modify {α : Type} (m : AMap α) (u : Nat) (g : α → α) (k : Nat) :
    (AMap.find (AMap.modify m u g) k).isSome = (AMap.find m k).isSome := by
  rw [AMap.find_modify]
  by_cases hk : k = u
  · rw [if_pos hk, hk]
    cases AMap.find m u <;> rfl
  · rw [if_neg hk]

/-- The wallet/event-log materialization prologue of `AppState::update`
preserves the ledger invariant. -/
theorem WF_materializeWallet (s : AppState) (a : Nat) (e : OnChainEvent)
    (h : WF s) : WF (s.materializeWallet a e) := by
  by_cases hc : AMap.contains s.wallets_events a
  · simp only [AppState.materializeWallet, hc, if_true]
    show MapsWF (AMap.modify s.wallets a _) (AMap.modify s.wallets_events a _)
    refine MapsWF_events_congr _ _ _ (fun k => isSome_find_modify _ _ _ _)
      (MapsWF_modify _ _ a _ (fun w => ⟨rfl, rfl, rfl, rfl, rfl⟩) h)
  · simp only [AppState.materializeWallet, hc, if_false]
    have hEa : (AMap.find s.wallets_events a).isSome = false := by
      cases hfE : AMap.find s.wallets_events a with
      | none => rfl
      | some l =>
          exact absurd (by rw [AMap.contains, hfE]; rfl) hc
    have hWa : AMap.find s.wallets a = none := by
      have hk := h.keys a
      rw [hEa] at hk
      cases hfW : AMap.find s.wallets a with
      | none => rfl
      | some w =>
          rw [hfW] at hk
          cases hk
    show MapsWF (AMap.modify (AMap.insert s.wallets a _) a _)
      (AMap.modify (AMap.insert s.wallets_events a []) a _)
    refine MapsWF_events_congr _ _ _ (fun k => isSome_find_modify _ _ _ _)
      (MapsWF_modify _ _ a _ (fun w => ⟨rfl, rfl, rfl, rfl, rfl⟩)
        (MapsWF_newWallet s.wallets s.wallets_events a e.tm hWa h))

/-- The proposal-log prologue does not touch the wallet maps. -/
theorem pushVotingEvent_maps (s : AppState) (id : Nat) (e : OnChainEvent) :
    (s.pushVotingEvent id e).wallets = s.wallets ∧
    (s.pushVotingEvent id e).wallets_events = s.wallets_events := by
  unfold AppState.pushVotingEvent
  by_cases hc : AMap.contains s.votings_events id <;> simp [hc]

/-- The proposal-log prologue preserves the ledger invariant. -/
theorem WF_pushVotingEvent (s : AppState) (id : Nat) (e : OnChainEvent)
    (h : WF s) : WF (s.pushVotingEvent id e) := by
  have hm := pushVotingEvent_maps s id e
  show MapsWF (s.pushVotingEvent id e).wallets (s.pushVotingEvent id e).wallets_events
  rw [hm.1, hm.2]
  exact h

/-- The `StartVote` arm preserves the ledger invariant: the only wallet write
is the vote-count bump. -/
theorem WF_startVote (s : AppState) (agent : VotingAgent)
    (vote_id creator : Nat) (metadata : String) (e : OnChainEvent)
    (h : WF s) : WF (s.startVote agent vote_id creator metadata e) := by
  show MapsWF (AMap.modify s.wallets creator (fun w => { w with votes := w.votes + 1 }))
    s.wallets_events
  exact MapsWF_modify _ _ _ _ (fun w => ⟨rfl, rfl, rfl, rfl, rfl⟩) h

/-- The `CastVote` arm preserves the ledger invariant. -/
theorem WF_castVote (s : AppState) (agent : VotingAgent)
    (vote_id voter : Nat) (supports : Bool) (stake : Nat)
    (h : WF s) : WF (s.castVote agent vote_id voter supports stake) := by
  simp only [AppState.castVote]
  split
  · show MapsWF (AMap.modify s.wallets voter _) s.wallets_events
    exact MapsWF_modify _ _ _ _ (fun w => ⟨rfl, rfl, rfl, rfl, rfl⟩) h
  · show MapsWF (AMap.modify s.wallets voter _) s.wallets_events
    exact MapsWF_modify _ _ _ _ (fun w => ⟨rfl, rfl, rfl, rfl, rfl⟩) h

/-- The `ExecuteVote` arm does not touch the wallet maps. -/
theorem WF_executeVote (s : AppState) (agent : VotingAgent) (vote_id : Nat)
    (h : WF s) : WF (s.executeVote agent vote_id) := h

/-- `set_vesting_addresses` rewrites only the `vested` flag of each wallet. -/
theorem WF_setVesting (s : AppState) (addresses : List Nat)
    (h : WF s) : WF (s.set_vesting_addresses addresses) := by
  show MapsWF (AMap.mapWithKey s.wallets _) s.wallets_events
  refine MapsWF_pointwise s.wallets _ s.wallets_events _
    (fun k => AMap.find_mapWithKey _ _ _)
    (fun k w => ⟨rfl, rfl, rfl, rfl, rfl⟩) h

/-- Stamping `last_block` from the `web3` log leaves the wallet maps alone. -/
theorem WF_setLastBlock (s : AppState) (lb : Option Nat) (h : WF s) :
    WF (match lb with | some b => { s with last_block := b } | none => s) := by
  cases lb <;> exact h

/-- `AppState::update` preserves the ledger invariant whenever it completes. -/
theorem WF_update (s : AppState) (e : OnChainEvent) (lb : Option Nat)
    (s' : AppState) (h : WF s) (hs' : s.update e lb = some s') : WF s' := by
  have hbase := WF_setLastBlock s lb h
  obtain ⟨entry, tm, bn, tx, li⟩ := e
  cases entry with
  | MintedReward ei am napr ts0 =>
      simp only [AppState.update, Api3.get_wallets, Api3.get_voting, List.foldl] at hs'
      exact WF_distribute _ _ _ _ _ _ _ _ _ hbase hs'
  | MintedRewardV0 ei am napr =>
      simp only [AppState.update, Api3.get_wallets, Api3.get_voting, List.foldl] at hs'
      exact WF_distribute _ _ _ _ _ _ _ _ _ hbase hs'
  | Deposited u am x =>
      simp only [AppState.update, Api3.get_wallets, Api3.get_voting, List.foldl,
        Option.some.injEq] at hs'
      subst hs'
      exact MapsWF_modify _ _ _ _ (fun w => ⟨rfl, rfl, rfl, rfl, rfl⟩)
        (WF_materializeWallet _ _ _ hbase)
  | DepositedV0 u am =>
      simp only [AppState.update, Api3.get_wallets, Api3.get_voting, List.foldl,
        Option.some.injEq] at hs'
      subst hs'
      exact MapsWF_modify _ _ _ _ (fun w => ⟨rfl, rfl, rfl, rfl, rfl⟩)
        (WF_materializeWallet _ _ _ hbase)
  | DepositedVesting u am x y z t0 =>
      simp only [AppState.update, Api3.get_wallets, Api3.get_voting, List.foldl,
        Option.some.injEq] at hs'
      subst hs'
      exact MapsWF_modify _ _ _ _ (fun w => ⟨rfl, rfl, rfl, rfl, rfl⟩)
        (WF_materializeWallet _ _ _ hbase)
  | DepositedByTimelockManager u am x =>
      simp only [AppState.update, Api3.get_wallets, Api3.get_voting, List.foldl,
        Option.some.injEq] at hs'
      subst hs'
      exact MapsWF_modify _ _ _ _ (fun w => ⟨rfl, rfl, rfl, rfl, rfl⟩)
        (WF_materializeWallet _ _ _ hbase)
  | Withdrawn u am x =>
      simp only [AppState.update, Api3.get_wallets, Api3.get_voting, List.foldl,
        Option.some.injEq] at hs'
      subst hs'
      exact MapsWF_modify _ _ _ _ (fun w => ⟨rfl, rfl, rfl, rfl, rfl⟩)
        (WF_materializeWallet _ _ _ hbase)
  | WithdrawnV0 u am =>
      simp only [AppState.update, Api3.get_wallets, Api3.get_voting, List.foldl,
        Option.some.injEq] at hs'
      subst hs'
      exact MapsWF_modify _ _ _ _ (fun w => ⟨rfl, rfl, rfl, rfl, rfl⟩)
        (WF_materializeWallet _ _ _ hbase)
  | Staked u am ms x y z t0 =>
      simp only [AppState.update, Api3.get_wallets, Api3.get_voting, List.foldl,
        Option.some.injEq] at hs'
      subst hs'
      exact WF_staked _ _ _ _ (WF_materializeWallet _ _ _ hbase)
  | StakedV0 u am ms =>
      simp only [AppState.update, Api3.get_wallets, Api3.get_voting, List.foldl,
        Option.some.injEq] at hs'
      subst hs'
      exact WF_staked _ _ _ _ (WF_materializeWallet _ _ _ hbase)
  | ScheduledUnstakeEv u am sh sf x =>
      simp only [AppState.update, Api3.get_wallets, Api3.get_voting, List.foldl] at hs'
      exact WF_scheduled_unstake _ _ _ _ _ _ (WF_materializeWallet _ _ _ hbase) hs'
  | ScheduledUnstakeV0 u am sh sf =>
      simp only [AppState.update, Api3.get_wallets, Api3.get_voting, List.foldl] at hs'
      exact WF_scheduled_unstake _ _ _ _ _ _ (WF_materializeWallet _ _ _ hbase) hs'
  | Unstaked u am x y z =>
      simp only [AppState.update, Api3.get_wallets, Api3.get_voting, List.foldl] at hs'
      exact WF_unstaked _ _ _ _ (WF_materializeWallet _ _ _ hbase) hs'
  | UnstakedV0 u am =>
      simp only [AppState.update, Api3.get_wallets, Api3.get_voting, List.foldl] at hs'
      exact WF_unstaked _ _ _ _ (WF_materializeWallet _ _ _ hbase) hs'
  | Delegated fA tA x y =>
      simp only [AppState.update, Api3.get_wallets, Api3.get_voting, List.foldl,
        Option.some.injEq] at hs'
      subst hs'
      exact WF_delegate _ _ _ _
        (WF_materializeWallet _ _ _ (WF_materializeWallet _ _ _ hbase))
  | DelegatedV0 fA tA x =>
      simp only [AppState.update, Api3.get_wallets, Api3.get_voting, List.foldl,
        Option.some.injEq] at hs'
      subst hs'
      exact WF_delegate _ _ _ _
        (WF_materializeWallet _ _ _ (WF_materializeWallet _ _ _ hbase))
  | Undelegated fA tA sh x =>
      simp only [AppState.update, Api3.get_wallets, Api3.get_voting, List.foldl,
        Option.some.injEq] at hs'
      subst hs'
      exact WF_undelegate _ _ _ _
        (WF_materializeWallet _ _ _ (WF_materializeWallet _ _ _ hbase))
  | UndelegatedV0 fA tA sh =>
      simp only [AppState.update, Api3.get_wallets, Api3.get_voting, List.foldl,
        Option.some.injEq] at hs'
      subst hs'
      exact WF_undelegate _ _ _ _
        (WF_materializeWallet _ _ _ (WF_materializeWallet _ _ _ hbase))
  | StartVote ag vid cr md =>
      simp only [AppState.update, Api3.get_wallets, Api3.get_voting, List.foldl,
        Option.some.injEq] at hs'
      subst hs'
      exact WF_startVote _ _ _ _ _ _
        (WF_pushVotingEvent _ _ _ (WF_materializeWallet _ _ _ hbase))
  | CastVote ag vid vt sup st =>
      simp only [AppState.update, Api3.get_wallets, Api3.get_voting, List.foldl,
        Option.some.injEq] at hs'
      subst hs'
      exact WF_castVote _ _ _ _ _ _
        (WF_pushVotingEvent _ _ _ (WF_materializeWallet _ _ _ hbase))
  | ExecuteVote ag vid =>
      simp only [AppState.update, Api3.get_wallets, Api3.get_voting, List.foldl,
        Option.some.injEq] at hs'
      subst hs'
      exact WF_executeVote _ _ _ (WF_pushVotingEvent _ _ _ hbase)
  | SetVestingAddresses addrs =>
      simp only [AppState.update, Api3.get_wallets, Api3.get_voting, List.foldl,
        Option.some.injEq] at hs'
      subst hs'
      exact WF_setVesting _ _ hbase
  | Unclassified =>
      simp only [AppState.update, Api3.get_wallets, Api3.get_voting, List.foldl,
        Option.some.injEq] at hs'
      subst hs'
      exact hbase

/-- `AppState::new` starts with empty, trivially invariant-satisfying maps. -/
theorem WF_new (cid : Nat) : WF (AppState.new cid) := by
  refine ⟨?_, ?_, ?_, ?_, ?_⟩
  · intro k w hk
    simp [AMap.find] at hk
  · intro k w hk
    simp [AMap.find] at hk
  · intro k w d hk hd
    simp [AMap.find] at hk
  · intro t wt f v ht hf
    simp [AMap.find] at ht
  · intro k
    rfl

/-- Folding the event reducer over a dead accumulator never revives it. -/
theorem foldl_bind_none (l : List EventInput) :
    List.foldl (fun acc ei => acc.bind (fun st => st.update ei.event ei.logBlock))
      (none : Option AppState) l = none := by
  induction l with
  | nil => rfl
  | cons a t iht => simpa [List.foldl] using iht

/-- Replaying any delivered sequence from an invariant-satisfying state lands
in an invariant-satisfying state. -/
theorem WF_applyEvents (es : List EventInput) (s s' : AppState) (h : WF s)
    (hs' : applyEvents s es = some s') : WF s' := by
  induction es generalizing s with
  | nil =>
      unfold applyEvents at hs'
      simp only [List.foldl, Option.some.injEq] at hs'
      subst hs'
      exact h
  | cons ei tl ih =>
      unfold applyEvents at hs'
      rw [List.foldl_cons] at hs'
      rw [show Option.bind (some s) (fun st => st.update ei.event ei.logBlock) =
        s.update ei.event ei.logBlock from rfl] at hs'
      cases hup : s.update ei.event ei.logBlock with
      | none =>
          rw [hup, foldl_bind_none] at hs'
          cases hs'
      | some s1 =>
          rw [hup] at hs'
          exact ih s1 (WF_update s ei.event ei.logBlock s1 h hup) hs'


/-- C1, counterexample to the spec's wording: after `c1Events`, account 10
is delegating yet reports nonzero voting power (its incoming delegation),
so the claimed invariant fails on a reachable state. -/
theorem c1_counterexample :
    applyEvents (AppState.new 1) c1Events = some c1State ∧
    specVotingPowerClaimHolds c1State = false := ⟨rfl, rfl⟩

/-- C1 (amended): after any delivered sequence from a fresh state, every
account's voting power equals (zero if delegating, else own shares) plus the
sum of incoming delegations — the delegating term is zeroed, but incoming
delegations still count. -/
theorem c1_voting_power_derivation (cid : Nat) (es : List EventInput)
    (s' : AppState) (hs' : applyEvents (AppState.new cid) es = some s')
    (k : Nat) (w : Wallet) (hw : AMap.find s'.wallets k = some w) :
    w.voting_power =
      (match w.delegates with | some _ => 0 | none => w.shares) +
        AMap.sumVals w.delegated :=
  (WF_applyEvents es _ s' (WF_new cid) hs').vp k w hw

theorem c1_witness :
    applyEvents (AppState.new 1) c1Events = some c1State ∧
    AMap.find c1State.wallets 10 = some c1Wallet ∧
    c1Wallet.voting_power =
      (match c1Wallet.delegates with | some _ => 0 | none => c1Wallet.shares) +
        AMap.sumVals c1Wallet.delegated :=
  ⟨rfl, rfl, c1_voting_power_derivation 1 c1Events c1State rfl 10 c1Wallet rfl⟩

/-- C3, counterexample to the spec's wording: after `c3Events` the failed
undelegation has removed the target's back-reference but kept the
delegator's `delegates` record, so symmetry fails on a reachable state. -/
theorem c3_counterexample :
    applyEvents (AppState.new 1) c3Events = some c3State ∧
    specDelegationSymmetryHolds c3State = false := ⟨rfl, rfl⟩

/-- C3 (amended): after any delivered sequence from a fresh state, (1) every
recorded delegation carries the delegator's current share count, and (2)
every incoming `delegated` entry is matched by a delegation record on the
paying account with the same target, value, and current shares.  The
spec's forward direction — a delegation record implies a live entry on the
target — is the part the error path breaks. -/
theorem c3_delegation_symmetry (cid : Nat) (es : List EventInput)
    (s' : AppState) (hs' : applyEvents (AppState.new cid) es = some s') :
    (∀ k w d, AMap.find s'.wallets k = some w → w.delegates = some d →
        d.shares = w.shares) ∧
    (∀ t wt f v, AMap.find s'.wallets t = some wt →
        AMap.find wt.delegated f = some v →
        ∃ wf1 d, AMap.find s'.wallets f = some wf1 ∧ wf1.delegates = some d ∧
          d.address = t ∧ d.shares = v ∧ d.shares = wf1.shares) := by
  have h := WF_applyEvents es _ s' (WF_new cid) hs'
  refine ⟨h.dsh, ?_⟩
  intro t wt f v ht hf
  obtain ⟨wf1, d, hwf1, hd, ha, hv⟩ := h.backref t wt f v ht hf
  exact ⟨wf1, d, hwf1, hd, ha, hv, h.dsh f wf1 d hwf1 hd⟩

theorem c3_witness :
    applyEvents (AppState.new 1) c3Events = some c3State ∧
    AMap.find c3State.wallets 10 = some c3Wallet ∧
    c3Wallet.delegates = some c3Delegation ∧
    c3Delegation.shares = c3Wallet.shares :=
  ⟨rfl, rfl, rfl,
    (c3_delegation_symmetry 1 c3Events c3State rfl).1 10 c3Wallet c3Delegation rfl rfl⟩
